import Mathlib

set_option maxRecDepth 100000

/-!
Shallow embedding of the tag normalization and fuzzy grouping engine of
`src/client/lib/tagEngine.ts`, together with theorems settling the frozen
claims about it.

Modelling conventions:
* JavaScript strings are Lean `String`s (lists of characters); the strings the
  engine handles are ASCII, where JS `toLowerCase`, `trim`, and code-unit
  comparison coincide with the Lean counterparts used here.
* JS numbers used as similarity/confidence scores are modelled as `Score`, an exact rational type defined below
  (the program only ever builds them from small integer ratios such as
  `1 - distance/maxLength` and compares them with `0.7`, `0.1`);
  counts and lengths are `Nat`, signed differences are `Int`.
* JS `Map` objects are association lists in insertion order (a `set` on an
  existing key updates in place, on a fresh key appends); JS `Set` objects are
  duplicate-free lists in insertion order.
* `Date` fields (`extractedAt`, `lastUpdated`) never influence any computation
  performed by the engine and are omitted from the records.
* `Array.prototype.sort` is modelled as a stable insertion sort on the
  comparator's `≤ 0` relation (the ECMAScript spec only pins the result down
  to a stable order for consistent comparators).
-/

/-! ### Exact rational scores

The JS numbers used as similarity/confidence scores are modelled by `Score`,
an exact rational kept in lowest terms with a positive denominator, so that
every score computation the engine performs is kernel-computable and
structural equality coincides with rational equality. -/

structure Score where
  num : Int
  den : Nat
deriving DecidableEq, Repr

/-- Normalizing constructor: divides out the gcd and moves the sign to the
numerator; total (a zero denominator, which the engine never produces, is
mapped to 0). -/
def Score.mk' (n d : Int) : Score :=
  if d = 0 then ⟨0, 1⟩
  else
    let s : Int := if d < 0 then -n else n
    let dd : Nat := d.natAbs
    let g : Nat := Nat.gcd s.natAbs dd
    if g = 0 then ⟨0, 1⟩ else ⟨s / (g : Int), dd / g⟩

instance (n : Nat) : OfNat Score n := ⟨⟨(n : Int), 1⟩⟩

instance : NatCast Score := ⟨fun n => ⟨(n : Int), 1⟩⟩

instance : Add Score := ⟨fun a b => Score.mk' (a.num * b.den + b.num * a.den) (a.den * b.den)⟩

instance : Sub Score := ⟨fun a b => Score.mk' (a.num * b.den - b.num * a.den) (a.den * b.den)⟩

instance : Mul Score := ⟨fun a b => Score.mk' (a.num * b.num) (a.den * b.den)⟩

instance : Div Score := ⟨fun a b => Score.mk' (a.num * b.den) (a.den * b.num)⟩

instance : LE Score := ⟨fun a b => a.num * b.den ≤ b.num * a.den⟩

instance : LT Score := ⟨fun a b => a.num * b.den < b.num * a.den⟩

instance (a b : Score) : Decidable (a ≤ b) :=
  inferInstanceAs (Decidable (a.num * b.den ≤ b.num * a.den))

instance (a b : Score) : Decidable (a < b) :=
  inferInstanceAs (Decidable (a.num * b.den < b.num * a.den))

/-- `Math.abs` on scores. -/
def Score.abs (a : Score) : Score := ⟨(a.num.natAbs : Int), a.den⟩

/-- `Math.min` on scores. -/
def Score.min (a b : Score) : Score := if a ≤ b then a else b

/-- `Math.max` on scores. -/
def Score.max (a b : Score) : Score := if a ≤ b then b else a

/-- `TagSource.type` enumeration from `tagEngine.ts`. -/
inductive SourceType where
  | filename
  | folder
  | user_folder
  | metadata
  | manual
deriving DecidableEq, Repr

/-- A Label Occurrence (`TagSource` in `tagEngine.ts`); the `extractedAt` and
`imageId` fields never affect the engine's computations and are omitted. -/
structure TagSource where
  type : SourceType
  value : String
deriving DecidableEq, Repr

/-- A Tag Variant as produced by `normalizeAndGroupTags`
(`lastUpdated` omitted, see module conventions). -/
structure TagVariant where
  canonical : String
  aliases : List String
  count : Nat
  sources : List TagSource
  confidence : Score
deriving DecidableEq, Repr

/-! ### Character and string helpers (ASCII models of the JS operations used) -/

/-- ASCII lowercase letter test (JS regex `[a-z]`). -/
def isAsciiLower (c : Char) : Bool := 'a' ≤ c && c ≤ 'z'

/-- ASCII uppercase letter test (JS regex `[A-Z]`). -/
def isAsciiUpper (c : Char) : Bool := 'A' ≤ c && c ≤ 'Z'

/-- ASCII digit test (JS regex `\d`). -/
def isAsciiDigit (c : Char) : Bool := '0' ≤ c && c ≤ '9'

/-- ASCII alphanumeric test (JS regex `[a-zA-Z0-9]`). -/
def isAsciiAlnum (c : Char) : Bool := isAsciiLower c || isAsciiUpper c || isAsciiDigit c

/-- Whitespace test (JS regex `\s` on the character repertoire in use). -/
def isWs (c : Char) : Bool := c = ' ' || c = '\t' || c = '\n' || c = '\r' || c = '\x0b' || c = '\x0c'

/-- `chPrefixOf p l` : `p` is a prefix of `l` (used to model `String.endsWith`). -/
def chPrefixOf : List Char → List Char → Bool
  | [], _ => true
  | _ :: _, [] => false
  | a :: as, b :: bs => a = b && chPrefixOf as bs

/-- Model of JS `String.prototype.endsWith`. -/
def strEndsWith (w suffix : String) : Bool :=
  chPrefixOf suffix.data.reverse w.data.reverse

/-- Model of JS `String.prototype.toLowerCase` (ASCII inputs). -/
def strToLower (s : String) : String := ⟨s.data.map Char.toLower⟩

/-- Model of JS `String.prototype.trim`. -/
def strTrim (s : String) : String :=
  ⟨((s.data.dropWhile isWs).reverse.dropWhile isWs).reverse⟩

/-- Splitting a string at every single space character: model of JS
`str.split(" ")` (a run of `k` spaces yields `k-1` empty pieces). -/
def splitSpaceCh : List Char → List (List Char)
  | [] => [[]]
  | c :: rest =>
    if c = ' ' then [] :: splitSpaceCh rest
    else
      match splitSpaceCh rest with
      | t :: ts => (c :: t) :: ts
      | [] => [[c]]

/-- JS `member.split(" ").length`, the "completeness" measure of
`selectCanonicalTag`. -/
def splitSpaceLen (s : String) : Nat := (splitSpaceCh s.data).length

/-- One splitting pass for JS `str.split(/re+/)`-style regexes: split at maximal
runs of characters satisfying `p`, keeping leading/trailing empty pieces exactly
as the JS regex split does.  Fuel-driven so that the kernel can evaluate it;
`fuel ≥ length + 1` always suffices. -/
def splitRunsAux (p : Char → Bool) : Nat → List Char → List (List Char)
  | 0, _ => []
  | fuel + 1, l =>
    let t := l.takeWhile (fun c => ¬ p c)
    let rest := l.dropWhile (fun c => ¬ p c)
    match rest with
    | [] => [t]
    | _ :: _ => t :: splitRunsAux p fuel (rest.dropWhile p)

/-- Split at maximal runs of characters satisfying `p` (JS `split(/[...]+/)`). -/
def splitRuns (p : Char → Bool) (l : List Char) : List (List Char) :=
  splitRunsAux p (l.length + 1) l

/-- Model of JS `tag.split(/\s+/)` used by `isSubset`/`areRearrangements`. -/
def splitWsJs (s : String) : List String :=
  (splitRuns isWs s.data).map List.asString

/-! ### Configuration (`FUZZY_CONFIG` in `tagEngine.ts`) -/

def FUZZY_maxDistance : Nat := 3
def FUZZY_minSimilarity : Score := 7/10
def FUZZY_enableSubsetMatching : Bool := true
def FUZZY_enableRearrangement : Bool := true
def FUZZY_minTokenLength : Nat := 2

/-! ### Curated pattern table (`COMMON_TAG_PATTERNS`), in source order -/

def COMMON_TAG_PATTERNS : List (String × List String) :=
  [ ("forced feminization",
      ["forced femanizartion", "forced femanization", "forced feminzation",
       "femanizartion", "feminzation"]),
    ("crossdressing",
      ["cross dressing", "cross-dressing", "cross_dress", "crossdresser",
       "crossdress"]),
    ("latex", ["latx", "latix", "latex_wear"]),
    ("sissy", ["sissie", "sisie", "sissyy"]),
    ("transformation", ["transform", "transf", "transformtion"]),
    ("makeup", ["make up", "make-up", "makup"]),
    ("training", ["trainig", "traning", "train"]),
    ("dress", ["dresses", "dressed", "dressing"]),
    ("outfit", ["outfits", "out fit"]),
    ("tutorial", ["tut", "tutorail", "guide"]),
    ("feminine", ["fem", "feminin", "feminne"]),
    ("dominant", ["dom", "dominate", "dominat"]),
    ("submissive", ["sub", "submisive", "submit"]),
    ("roleplay", ["role play", "role-play", "rp"]),
    ("hypno", ["hypnosis", "hipno", "hyp"]),
    ("petplay", ["pet play", "pet-play", "puppy play"]),
    ("bdsm", ["bd sm", "b.d.s.m"]),
    ("humiliation", ["humiliate", "humiliation"]),
    ("bondage", ["bound", "tied", "rope"]) ]

/-! ### Stopwords and file-extension filter lists -/

def STOPWORDS : List String :=
  ["the", "a", "an", "and", "or", "but", "in", "on", "at", "to", "for", "of",
   "with", "by", "this", "that", "these", "those", "is", "are", "was", "were",
   "be", "been", "being", "have", "has", "had", "do", "does", "did", "will",
   "would", "could", "should", "may", "might", "must", "can", "get", "got",
   "go", "went", "come", "came"]

def IMAGE_EXTENSIONS : List String :=
  ["jpg", "png", "jpeg", "webp", "gif", "bmp", "tiff", "svg"]

/-! ### Levenshtein distance (`levenshteinDistance`) -/

/-- One cell-by-cell sweep of the DP row computation: given the character
`b = str2[j-1]`, the remaining characters of `str1`, the tail of the previous
row starting at the diagonal entry, and the freshly computed cell to the left,
produce the rest of row `j`.  Mirrors the inner `for (i)` loop. -/
def levRowStep (b : Char) : List Char → List Nat → Nat → List Nat
  | [], _, _ => []
  | a :: as, p0 :: p1 :: ps, left =>
    let cell := Nat.min (left + 1) (Nat.min (p1 + 1) (p0 + (if a = b then 0 else 1)))
    cell :: levRowStep b as (p1 :: ps) cell
  | _ :: _, _, _ => []

/-- Row `j` of the DP matrix from row `j-1` (mirrors the outer `for (j)` loop;
`matrix[j][0] = j` is one more than the previous row's head). -/
def levNextRow (b : Char) (s1 : List Char) (prev : List Nat) : List Nat :=
  match prev with
  | [] => []
  | p0 :: _ => (p0 + 1) :: levRowStep b s1 prev (p0 + 1)

/-- The full DP table of `levenshteinDistance`, evaluated row by row; the
result is `matrix[str2.length][str1.length]`, the last entry of the last row. -/
def levDP (s1 s2 : List Char) : Nat :=
  (s2.foldl (fun prev b => levNextRow b s1 prev) (List.range (s1.length + 1))).getLastD 0

/-- `levenshteinDistance` from `tagEngine.ts`: early returns for equal and
empty strings, the length-difference fast reject, then the DP table. -/
def levenshteinDistance (str1 str2 : String) : Nat :=
  if str1 = str2 then 0
  else if str1.length = 0 then str2.length
  else if str2.length = 0 then str1.length
  else if ((str1.length : Int) - (str2.length : Int)).natAbs > FUZZY_maxDistance then
    FUZZY_maxDistance + 1
  else levDP str1.data str2.data

/-- `calculateSimilarity` from `tagEngine.ts`. -/
def calculateSimilarity (str1 str2 : String) : Score :=
  let distance := levenshteinDistance str1 str2
  let maxLength := Nat.max str1.length str2.length
  if maxLength = 0 then 1 else 1 - (distance : Score) / (maxLength : Score)

/-- `isSubset` from `tagEngine.ts`. -/
def isSubset (tag1 tag2 : String) : Bool :=
  let tokens1 := splitWsJs tag1
  let tokens2 := splitWsJs tag2
  if tokens1.length ≥ tokens2.length then false
  else tokens1.all fun token =>
    tokens2.any fun token2 => FUZZY_minSimilarity ≤ calculateSimilarity token token2

/-- `areRearrangements` from `tagEngine.ts` (JS default `sort()` is
lexicographic string order, stable). -/
def areRearrangements (tag1 tag2 : String) : Bool :=
  let tokens1 := (splitWsJs tag1).insertionSort (fun a b => a ≤ b)
  let tokens2 := (splitWsJs tag2).insertionSort (fun a b => a ≤ b)
  if tokens1.length ≠ tokens2.length then false
  else (tokens1.zip tokens2).all fun p =>
    FUZZY_minSimilarity ≤ calculateSimilarity p.1 p.2

/-! ### Plural normalization (`normalizePlural`) -/

def pluralRules : List (String × String) :=
  [("ies", "y"), ("ves", "f"), ("ses", "s"), ("es", ""), ("s", "")]

/-- The body of `normalizePlural`'s rule loop: first rule whose suffix matches
under the guard `word.length > suffix.length + 1` rewrites the word. -/
def applyPluralRules (word : String) : List (String × String) → String
  | [] => word
  | (suffix, replacement) :: rest =>
    if strEndsWith word suffix && word.length > suffix.length + 1 then
      ⟨(word.data.take (word.length - suffix.length)) ++ replacement.data⟩
    else applyPluralRules word rest

/-- `normalizePlural` from `tagEngine.ts`. -/
def normalizePlural (word : String) : String := applyPluralRules word pluralRules

/-! ### Tokenizer (`tokenizeText`) -/

/-- The delimiter class of `tokenizeText`'s first pass:
`[_\-\s,.()[\]{}|;:!?"'`~@#$%^&*+=<>\/\\]`. -/
def isDelim (c : Char) : Bool :=
  isWs c ||
  c ∈ ['_', '-', ',', '.', '(', ')', '[', ']', '{', '}', '|', ';', ':', '!',
       '?', Char.ofNat 34, Char.ofNat 39, Char.ofNat 96, '~', '@', '#', '$',
       '%', Char.ofNat 94, '&', '*', '+', '=', '<', '>', '/', Char.ofNat 92]

/-- Splitting a token at camel-case boundaries: the net effect of
`token.replace(/([a-z])([A-Z])/g, "$1 $2")` followed by `split(/\s+/)` on a
whitespace-free token.  `acc` is the current segment, reversed. -/
def camelSplitAux : List Char → List Char → List (List Char)
  | acc, [] => [acc.reverse]
  | acc, c :: rest =>
    match acc with
    | p :: _ =>
      if isAsciiLower p && isAsciiUpper c then acc.reverse :: camelSplitAux [c] rest
      else camelSplitAux (c :: acc) rest
    | [] => camelSplitAux [c] rest

def camelSplit (l : List Char) : List (List Char) := camelSplitAux [] l

/-- The per-token cleaning map of `tokenizeText`'s third pass: lowercase, trim,
strip trailing digits, strip non-alphanumeric characters, plural-normalize. -/
def cleanToken (token : List Char) : String :=
  let lowered := (token.map Char.toLower)
  let trimmed := (lowered.dropWhile isWs).reverse.dropWhile isWs |>.reverse
  let noTrailingDigits := (trimmed.reverse.dropWhile isAsciiDigit).reverse
  let alnumOnly := noTrailingDigits.filter (fun c => isAsciiAlnum c || isWs c)
  normalizePlural ⟨alnumOnly⟩

/-- The filter of `tokenizeText`'s third pass. -/
def keepToken (token : String) : Bool :=
  FUZZY_minTokenLength ≤ token.length &&
  token ∉ STOPWORDS &&
  ¬ (token.length > 0 && token.data.all isAsciiDigit) &&
  token ∉ IMAGE_EXTENSIONS

/-- De-duplication keeping first occurrences (`[...new Set(list)]`). -/
def dedupFirst (l : List String) : List String :=
  l.foldl (fun acc s => if s ∈ acc then acc else acc ++ [s]) []

/-- `tokenizeText` from `tagEngine.ts`. -/
def tokenizeText (text : String) : List String :=
  if text = "" then []
  else
    let tokens := splitRuns isDelim text.data
    let expandedTokens := tokens.foldl
      (fun acc token => if token.length > 1 then acc ++ camelSplit token else acc) []
    let cleanedTokens := (expandedTokens.map cleanToken).filter keepToken
    dedupFirst cleanedTokens

/-! ### Bracket extraction (`extractBracketContent`) -/

/-- All matches of the regex `\(OPEN([^CLOSE]+)CLOSE\)`-style pattern for one
bracket pair, scanning left to right: each match's interior is tokenized and
appended.  Fuel-driven; `fuel = length + 1` suffices since every step consumes
at least one character. -/
def bracketScan (openC closeC : Char) : Nat → List Char → List String
  | 0, _ => []
  | _ + 1, [] => []
  | fuel + 1, c :: rest =>
    if c = openC then
      let content := rest.takeWhile (fun d => ¬ d = closeC)
      let after := rest.dropWhile (fun d => ¬ d = closeC)
      match after with
      | [] => []
      | _ :: after' =>
        if content.isEmpty then bracketScan openC closeC fuel rest
        else tokenizeText ⟨content⟩ ++ bracketScan openC closeC fuel after'
    else bracketScan openC closeC fuel rest

/-- `extractBracketContent` from `tagEngine.ts`: three independent passes for
`(...)`, `[...]` and `{...}`. -/
def extractBracketContent (text : String) : List String :=
  bracketScan '(' ')' (text.data.length + 1) text.data ++
  bracketScan '[' ']' (text.data.length + 1) text.data ++
  bracketScan (Char.ofNat 123) (Char.ofNat 125) (text.data.length + 1) text.data

/-! ### Title and tag extraction (`extractTitleAndTags`) -/

/-- Model of the extension-stripping regex replace
`filename.replace(/\.[^/.]+$/, "")`. -/
def stripExtension (l : List Char) : List Char :=
  let rev := l.reverse
  let seg := rev.takeWhile (fun c => ¬ (c = '.' || c = '/'))
  match rev.drop seg.length with
  | '.' :: _ => if seg.isEmpty then l else (rev.drop (seg.length + 1)).reverse
  | _ => l

/-- Does the character list contain two consecutive commas
(JS `nameWithoutExt.includes(",,")`)? -/
def hasDoubleComma : List Char → Bool
  | ',' :: ',' :: _ => true
  | _ :: rest => hasDoubleComma rest
  | [] => false

/-- Splitting on the literal separator `",,"`, left to right, non-overlapping
(JS `nameWithoutExt.split(",,")`).  Fuel-driven; `fuel ≥ length + 1`
suffices. -/
def splitDoubleCommaAux : Nat → List Char → List Char → List String
  | 0, acc, _ => [⟨acc.reverse⟩]
  | _ + 1, acc, [] => [⟨acc.reverse⟩]
  | fuel + 1, acc, ',' :: ',' :: rest => (⟨acc.reverse⟩ : String) :: splitDoubleCommaAux fuel [] rest
  | fuel + 1, acc, c :: rest => splitDoubleCommaAux fuel (c :: acc) rest

def splitDoubleComma (l : List Char) : List String :=
  splitDoubleCommaAux (l.length + 1) [] l

/-- `extractTitleAndTags` from `tagEngine.ts`: returns the title and the
filename-kind Label Occurrences. -/
def extractTitleAndTags (filename : String) : String × List TagSource :=
  let nameWithoutExt : String := ⟨stripExtension filename.data⟩
  if hasDoubleComma nameWithoutExt.data then
    let parts := (splitDoubleComma nameWithoutExt.data).map strTrim
    let title := if parts.headD "" = "" then nameWithoutExt else parts.headD ""
    let tagSources := (parts.drop 1).filterMap fun tagText =>
      if tagText.length > 0 then some ⟨SourceType.filename, strTrim tagText⟩ else none
    (title, tagSources)
  else
    let tokens := tokenizeText nameWithoutExt
    let bracketContent := extractBracketContent nameWithoutExt
    let allTokens := tokens ++ bracketContent
    if allTokens.length = 0 then (nameWithoutExt, [])
    else
      let titleWords := allTokens.take (Nat.min 3 ((allTokens.length + 2) / 3))
      let remainingTokens := allTokens.drop titleWords.length
      (String.intercalate " " titleWords,
       remainingTokens.map fun token => ⟨SourceType.filename, token⟩)

/-! ### Frequency map (`tagCounts` in `normalizeAndGroupTags`) -/

/-- Per-value record of `tagCounts`: raw occurrence count and source list. -/
structure CountEntry where
  count : Nat
  sources : List TagSource
deriving DecidableEq, Repr

/-- One step of the `allTagSources.forEach` loop building `tagCounts`:
a JS `Map.set` updates an existing key in place and appends a fresh key. -/
def tagCountsUpsert : List (String × CountEntry) → TagSource → List (String × CountEntry)
  | [], source => [(source.value, ⟨1, [source]⟩)]
  | (k, e) :: rest, source =>
    if k = source.value then (k, ⟨e.count + 1, e.sources ++ [source]⟩) :: rest
    else (k, e) :: tagCountsUpsert rest source

/-- The `tagCounts` map of `normalizeAndGroupTags`, in key insertion order. -/
def buildTagCounts (allTagSources : List TagSource) : List (String × CountEntry) :=
  allTagSources.foldl tagCountsUpsert []

/-- Association-list lookup (JS `Map.get`). -/
def lookupEntry (m : List (String × CountEntry)) (k : String) : Option CountEntry :=
  match m with
  | [] => none
  | (k', e) :: rest => if k' = k then some e else lookupEntry rest k

/-- `tagCounts.get(m)?.count || 0`. -/
def countOf (m : List (String × CountEntry)) (k : String) : Nat :=
  (lookupEntry m k).elim 0 CountEntry.count

/-- `tagCounts.get(m)?.sources`, defaulting to the empty list. -/
def sourcesOf (m : List (String × CountEntry)) (k : String) : List TagSource :=
  (lookupEntry m k).elim [] CountEntry.sources

/-! ### Canonical selection (`selectCanonicalTag`) -/

/-- Does this member have a `user_folder`- or `manual`-kind source
(`tagCounts.get(member)?.sources.some(...)`)? -/
def hasUserSource (tc : List (String × CountEntry)) (member : String) : Bool :=
  (sourcesOf tc member).any fun s =>
    s.type = SourceType.user_folder || s.type = SourceType.manual

/-- The curated-pattern loop at the top of `selectCanonicalTag`: the first
table entry whose canonical label or one of whose pattern strings is literally
a member wins. -/
def curatedLookup (members : List String) : List (String × List String) → Option String
  | [] => none
  | (canonical, patterns) :: rest =>
    if canonical ∈ members then some canonical
    else if patterns.any (· ∈ members) then some canonical
    else curatedLookup members rest

/-- The three mutable variables of `selectCanonicalTag`'s scan. -/
structure ScanState where
  best : String
  maxCount : Nat
  maxCompleteness : Nat
deriving DecidableEq, Repr

/-- One iteration of the `members.forEach` scan of `selectCanonicalTag`:
a user-sourced member replaces a best candidate lacking a user source (and the
iteration ends there); otherwise a strictly higher count, and then an equal
count with strictly more space-delimited words, update the candidate. -/
def scanStep (tc : List (String × CountEntry)) (st : ScanState) (member : String) : ScanState :=
  let count := countOf tc member
  let completeness := splitSpaceLen member
  if hasUserSource tc member = true ∧ hasUserSource tc st.best = false then
    ⟨member, count, completeness⟩
  else
    let st1 := if count > st.maxCount then (⟨member, count, completeness⟩ : ScanState) else st
    if count = st1.maxCount ∧ completeness > st1.maxCompleteness then
      (⟨member, st1.maxCount, completeness⟩ : ScanState)
    else st1

/-- `selectCanonicalTag` from `tagEngine.ts`.  (JS indexes `members[0]` before
the scan; the engine only ever calls this with a non-empty member list, and the
empty case — a JS `TypeError` — is mapped to `""`.) -/
def selectCanonicalTag (members : List String) (tc : List (String × CountEntry)) : String :=
  match curatedLookup members COMMON_TAG_PATTERNS with
  | some canonical => canonical
  | none =>
    match members with
    | [] => ""
    | m0 :: _ =>
      (members.foldl (scanStep tc) ⟨m0, countOf tc m0, splitSpaceLen m0⟩).best

/-! ### Group coherence (`calculateGroupCoherence`) -/

/-- Sum of pairwise similarities `members[i]`–`members[j]`, `i < j`, together
with the number of comparisons. -/
def pairwiseSim : List String → Score × Nat
  | [] => (0, 0)
  | m :: rest =>
    let tail := pairwiseSim rest
    (rest.foldl (fun acc other => acc + calculateSimilarity m other) tail.1,
     tail.2 + rest.length)

/-- `calculateGroupCoherence` from `tagEngine.ts`. -/
def calculateGroupCoherence (members : List String) : Score :=
  if members.length ≤ 1 then 1
  else
    let p := pairwiseSim members
    if p.2 > 0 then p.1 / (p.2 : Score) else 1

/-! ### The grouping loop (`normalizeAndGroupTags`) -/

/-- A cluster under construction (`group` objects in `normalizeAndGroupTags`);
`members` models a JS `Set` (insertion order, duplicate-free). -/
structure TagGroup where
  members : List String
  sources : List TagSource
  confidence : Score
deriving DecidableEq, Repr

/-- JS `Set.add` on the insertion-ordered list model. -/
def setAdd (l : List String) (x : String) : List String :=
  if x ∈ l then l else l ++ [x]

/-- JS `Map.set` on the insertion-ordered association-list model. -/
def mapSet (m : List (String × TagGroup)) (k : String) (v : TagGroup) :
    List (String × TagGroup) :=
  match m with
  | [] => [(k, v)]
  | (k', v') :: rest => if k' = k then (k, v) :: rest else (k', v') :: mapSet rest k v

/-- One iteration of a strategy-1/2/3 inner `uniqueTags.forEach` loop: absorb
`otherTag` into the group when it is unprocessed, distinct from the seed, and
satisfies `cond seed otherTag`. -/
def absorbStep (tc : List (String × CountEntry)) (cond : String → String → Bool)
    (tag : String) (st : TagGroup × List String) (otherTag : String) :
    TagGroup × List String :=
  if otherTag ∈ st.2 ∨ tag = otherTag then st
  else if cond tag otherTag = true then
    (⟨setAdd st.1.members otherTag, st.1.sources ++ sourcesOf tc otherTag, st.1.confidence⟩,
     st.2 ++ [otherTag])
  else st

/-- Strategy 1's test: `similarity ≥ minSimilarity && distance ≤ maxDistance`. -/
def directMatch (tag otherTag : String) : Bool :=
  FUZZY_minSimilarity ≤ calculateSimilarity tag otherTag &&
  levenshteinDistance tag otherTag ≤ FUZZY_maxDistance

/-- Strategy 2's test: `isSubset(tag, otherTag) || isSubset(otherTag, tag)`. -/
def subsetMatch (tag otherTag : String) : Bool :=
  isSubset tag otherTag || isSubset otherTag tag

/-- Strategy 4, the curated-pattern pass: for each table entry whose pattern
list contains a string 0.7-similar to some member, the entry's canonical label
is unioned into a copy of the member set and stored under that canonical key
(the JS `return` inside `patterns.forEach` only ends one callback, so every
matching pattern re-stores the same value). -/
def strategy4 (group : TagGroup) (tagGroups : List (String × TagGroup)) :
    List (String × TagGroup) :=
  COMMON_TAG_PATTERNS.foldl
    (fun tgs entry =>
      if entry.2.any (fun pattern =>
          group.members.any fun member =>
            FUZZY_minSimilarity ≤ calculateSimilarity member pattern) then
        mapSet tgs entry.1
          ⟨entry.1 :: group.members.filter (· ≠ entry.1), group.sources,
           Score.min (group.confidence + 1/5) 1⟩
      else tgs)
    tagGroups

/-- The absorption phase for one seed `tag`: the freshly seeded group after the
three strategy passes, together with the updated `processed` set. -/
def absorbAll (tc : List (String × CountEntry)) (uniqueTags : List String)
    (processed : List String) (tag : String) : TagGroup × List String :=
  let g0 : TagGroup := ⟨[tag], sourcesOf tc tag, 1⟩
  let s1 := uniqueTags.foldl (absorbStep tc directMatch tag) (g0, processed ++ [tag])
  let s2 := if FUZZY_enableSubsetMatching then
      uniqueTags.foldl (absorbStep tc subsetMatch tag) s1
    else s1
  if FUZZY_enableRearrangement then
    uniqueTags.foldl (absorbStep tc areRearrangements tag) s2
  else s2

/-- The body of the outer `uniqueTags.forEach` loop of `normalizeAndGroupTags`:
seed a group with an unprocessed tag, run the three absorption strategies, the
curated-pattern pass, canonical selection and coherence scoring, and store the
group under its canonical key. -/
def processTag (tc : List (String × CountEntry)) (uniqueTags : List String)
    (st : List String × List (String × TagGroup)) (tag : String) :
    List String × List (String × TagGroup) :=
  if tag ∈ st.1 then st
  else
    let s3 := absorbAll tc uniqueTags st.1 tag
    let tg1 := strategy4 s3.1 st.2
    let canonical := selectCanonicalTag s3.1.members tc
    let g4 : TagGroup := ⟨s3.1.members, s3.1.sources,
      Score.max (1/10) (calculateGroupCoherence s3.1.members)⟩
    (s3.2, mapSet tg1 canonical g4)

/-- The clusters formed by the absorption phase alone (the `group.members` sets
at the end of step 2 of the grouping algorithm, before the curated-pattern pass
and canonical-keyed storage), in formation order.  This folds the exact same
`absorbAll` used by `processTag` over the same unique-tag list. -/
def rawClusterStep (tc : List (String × CountEntry)) (uniqueTags : List String)
    (st : List String × List (List String)) (tag : String) :
    List String × List (List String) :=
  if tag ∈ st.1 then st
  else
    let s3 := absorbAll tc uniqueTags st.1 tag
    (s3.2, st.2 ++ [s3.1.members])

/-- The member sets of the absorption-phase clusters of
`normalizeAndGroupTags`, in formation order. -/
def rawClusters (allTagSources : List TagSource) : List (List String) :=
  let tc := buildTagCounts allTagSources
  let uniqueTags := tc.map Prod.fst
  (uniqueTags.foldl (rawClusterStep tc uniqueTags) ([], [])).2

/-- The final `tagGroups` map of `normalizeAndGroupTags`, in insertion order. -/
def groupTags (allTagSources : List TagSource) : List (String × TagGroup) :=
  let tc := buildTagCounts allTagSources
  let uniqueTags := tc.map Prod.fst
  (uniqueTags.foldl (processTag tc uniqueTags) ([], [])).2

/-- The `tagGroups.forEach` conversion to `TagVariant` records. -/
def toVariant (tc : List (String × CountEntry)) (e : String × TagGroup) : TagVariant :=
  { canonical := e.1
    aliases := e.2.members.filter (· ≠ e.1)
    count := e.2.members.foldl (fun sum tag => sum + countOf tc tag) 0
    sources := e.2.sources
    confidence := e.2.confidence }

/-- The final sort's comparator, as the relation "`a` sorts no later than `b`"
(`cmp(a,b) ≤ 0` for the JS comparator). -/
def variantLe (a b : TagVariant) : Bool :=
  if 1/10 < Score.abs (a.confidence - b.confidence) then b.confidence - a.confidence ≤ 0
  else (b.count : Int) - (a.count : Int) ≤ 0

/-- `normalizeAndGroupTags` from `tagEngine.ts`. -/
def normalizeAndGroupTags (allTagSources : List TagSource) : List TagVariant :=
  let tc := buildTagCounts allTagSources
  ((groupTags allTagSources).map (toVariant tc)).insertionSort
    (fun a b => variantLe a b)

/-! ### Search index (`TagSearchIndex`)

JS `Map`/`Set` values here are the variant *objects*; object identity is
modelled by the variant's position in the indexed list, so the three maps
store positions and `search` turns positions back into variants at the end. -/

structure TagSearchIndex where
  canonicalIndex : List (String × Nat)
  aliasIndex : List (String × Nat)
  fuzzyIndex : List (String × List Nat)
deriving DecidableEq, Repr

/-- JS `Map.set` for the canonical / alias indices. -/
def mapSetNat : List (String × Nat) → String → Nat → List (String × Nat)
  | [], k, v => [(k, v)]
  | (k', v') :: rest, k, v =>
    if k' = k then (k, v) :: rest else (k', v') :: mapSetNat rest k v

/-- JS `Map.get` for the canonical / alias indices. -/
def lookupNat : List (String × Nat) → String → Option Nat
  | [], _ => none
  | (k', v') :: rest, k => if k' = k then some v' else lookupNat rest k

/-- `this.fuzzyIndex.get(token)!.push(variant)` with on-demand entry creation. -/
def fuzzyPush : List (String × List Nat) → String → Nat → List (String × List Nat)
  | [], tok, i => [(tok, [i])]
  | (t, is) :: rest, tok, i =>
    if t = tok then (t, is ++ [i]) :: rest else (t, is) :: fuzzyPush rest tok i

/-- JS `Map.get` for the fuzzy index. -/
def lookupFuzzy : List (String × List Nat) → String → Option (List Nat)
  | [], _ => none
  | (t, is) :: rest, tok => if t = tok then some is else lookupFuzzy rest tok

/-- The position list stored in the fuzzy index under a token (`[]` when the
token is absent); proof-side accessor. -/
def fuzzyGet (f : List (String × List Nat)) (tok : String) : List Nat :=
  (lookupFuzzy f tok).getD []

/-- One iteration of `buildIndex`'s `tagVariants.forEach`: index the variant at
position `i` under its canonical string, each alias, and every token of every
member string. -/
def indexVariant (st : TagSearchIndex) (i : Nat) (v : TagVariant) : TagSearchIndex :=
  let ci := mapSetNat st.canonicalIndex v.canonical i
  let ai := v.aliases.foldl (fun m a => mapSetNat m a i) st.aliasIndex
  let allTags := v.canonical :: v.aliases
  let fi := allTags.foldl
    (fun f tag => (tokenizeText tag).foldl (fun f' tok => fuzzyPush f' tok i) f)
    st.fuzzyIndex
  ⟨ci, ai, fi⟩

def buildIndexAux : Nat → List TagVariant → TagSearchIndex → TagSearchIndex
  | _, [], st => st
  | i, v :: vs, st => buildIndexAux (i + 1) vs (indexVariant st i v)

/-- `TagSearchIndex.buildIndex` (also the constructor) from `tagEngine.ts`. -/
def buildIndex (tagVariants : List TagVariant) : TagSearchIndex :=
  buildIndexAux 0 tagVariants ⟨[], [], []⟩

/-- JS `Set.add` on the position-list model of the `results` set. -/
def setAddNat (l : List Nat) (x : Nat) : List Nat :=
  if x ∈ l then l else l ++ [x]

/-- The similarity scan of `search` over every indexed token for one query
token: every variant stored under a 0.7-similar index token is added. -/
def fuzzyScanFold (idx : TagSearchIndex) (token : String) (r : List Nat) : List Nat :=
  idx.fuzzyIndex.foldl
    (fun racc entry =>
      if FUZZY_minSimilarity ≤ calculateSimilarity token entry.1 then
        entry.2.foldl setAddNat racc
      else racc)
    r

/-- The body of `search`'s `queryTokens.forEach`: a direct fuzzy-index hit for
the token, then the similarity scan. -/
def searchTokenStep (idx : TagSearchIndex) (r : List Nat) (token : String) : List Nat :=
  fuzzyScanFold idx token
    (match lookupFuzzy idx.fuzzyIndex token with
     | some is => is.foldl setAddNat r
     | none => r)

/-- The `results` set of `TagSearchIndex.search`, in insertion order: exact
canonical hit, exact alias hit, then per query token a direct fuzzy-index hit
and a similarity scan over every indexed token. -/
def searchIds (idx : TagSearchIndex) (nq : String) : List Nat :=
  let r1 := match lookupNat idx.canonicalIndex nq with
    | some i => setAddNat [] i
    | none => []
  let r2 := match lookupNat idx.aliasIndex nq with
    | some i => setAddNat r1 i
    | none => r1
  (tokenizeText nq).foldl (searchTokenStep idx) r2

/-- `a.canonical === normalizedQuery || a.aliases.includes(normalizedQuery)`. -/
def isExactMatch (nq : String) (v : TagVariant) : Bool :=
  v.canonical = nq || nq ∈ v.aliases

/-- The `search` result comparator as the relation "`a` sorts no later than
`b`": exact matches first, then the confidence/count order of the final
variant sort. -/
def searchLe (nq : String) (a b : TagVariant) : Bool :=
  if isExactMatch nq a ≠ isExactMatch nq b then isExactMatch nq a
  else variantLe a b

/-- A placeholder variant for out-of-range list indexing (never reached by
positions produced by `buildIndex`). -/
def dummyVariant : TagVariant := ⟨"", [], 0, [], 0⟩

/-- `TagSearchIndex.search` from `tagEngine.ts`, for the index built from
`tagVariants`. -/
def search (tagVariants : List TagVariant) (query : String) : List TagVariant :=
  let idx := buildIndex tagVariants
  let nq := strTrim (strToLower query)
  ((searchIds idx nq).map (fun i => tagVariants.getD i dummyVariant)).insertionSort
    (fun a b => searchLe nq a b)

/-! ### Definitions taken from the claims' wording (for comparison with the
source-derived definitions above) -/

/-- Claim C2's curated rule (i), as worded: the first curated table entry whose
canonical label or one of whose pattern strings is literally a cluster member. -/
def claimCuratedFind (members : List String) : Option String :=
  (COMMON_TAG_PATTERNS.find? fun entry =>
    entry.1 ∈ members || entry.2.any (· ∈ members)).map Prod.fst

/-- Claim C2's rules (iii)+(iv), as worded: the member with the highest raw
occurrence count, ties broken in favor of more whitespace-delimited words. -/
def claimMaxCountMember (tc : List (String × CountEntry)) (members : List String) :
    Option String :=
  members.foldl
    (fun best m =>
      match best with
      | none => some m
      | some b =>
        if countOf tc m > countOf tc b then some m
        else if countOf tc m = countOf tc b &&
            (splitWsJs m).length > (splitWsJs b).length then some m
        else best)
    none

/-- Claim C2's full priority order, as worded — first matching rule wins:
(i) curated hit; (ii) otherwise the first member with a `user_folder`- or
`manual`-kind source; (iii)/(iv) otherwise the count/word-count maximum. -/
def claimSelectCanonical (members : List String) (tc : List (String × CountEntry)) :
    String :=
  match claimCuratedFind members with
  | some canonical => canonical
  | none =>
    match members.find? (fun m => hasUserSource tc m) with
    | some m => m
    | none => (claimMaxCountMember tc members).getD ""

/-- Claim C2 as amended: after the curated rule, a single left-to-right scan
keeps a best candidate, starting from the first member; at each member the
first applicable action is taken: a user-sourced member replaces a best
candidate lacking a user source, otherwise a strictly higher raw count
replaces, otherwise an equal count with strictly more space-delimited segments
replaces. -/
def amendedScan (tc : List (String × CountEntry)) (best : String) :
    List String → String
  | [] => best
  | m :: rest =>
    if hasUserSource tc m = true ∧ hasUserSource tc best = false then amendedScan tc m rest
    else if countOf tc m > countOf tc best then amendedScan tc m rest
    else if countOf tc m = countOf tc best ∧ splitSpaceLen m > splitSpaceLen best then
      amendedScan tc m rest
    else amendedScan tc best rest

/-- The amended canonical-selection procedure of claim C2. -/
def amendedSelectCanonical (members : List String) (tc : List (String × CountEntry)) :
    String :=
  match claimCuratedFind members with
  | some canonical => canonical
  | none =>
    match members with
    | [] => ""
    | m0 :: _ => amendedScan tc m0 members

/-- Claim C8's guard, as worded: a rule applies exactly when the word ends with
the suffix and keeps a stem of length at least 1 beyond it. -/
def claimApplyPluralRules (word : String) : List (String × String) → String
  | [] => word
  | (suffix, replacement) :: rest =>
    if strEndsWith word suffix && word.length - suffix.length ≥ 1 then
      ⟨(word.data.take (word.length - suffix.length)) ++ replacement.data⟩
    else claimApplyPluralRules word rest

/-- Plural normalization as claim C8 words it. -/
def claimNormalizePlural (word : String) : String :=
  claimApplyPluralRules word pluralRules

/-- Claim C8 as amended: the guard keeps a stem of length at least 2 beyond
the suffix. -/
def amendedApplyPluralRules (word : String) : List (String × String) → String
  | [] => word
  | (suffix, replacement) :: rest =>
    if strEndsWith word suffix && word.length - suffix.length ≥ 2 then
      ⟨(word.data.take (word.length - suffix.length)) ++ replacement.data⟩
    else amendedApplyPluralRules word rest

/-- Plural normalization as amended claim C8 words it. -/
def amendedNormalizePlural (word : String) : String :=
  amendedApplyPluralRules word pluralRules

/-- Raw occurrence count of a value in an input occurrence list (the number of
Label Occurrences with exactly that value). -/
def rawCount (allTagSources : List TagSource) (value : String) : Nat :=
  allTagSources.countP (fun s => s.value = value)

/-! ### Concrete inputs used by counterexamples and witnesses -/

/-- A filename-kind Label Occurrence. -/
def fileSource (v : String) : TagSource := ⟨SourceType.filename, v⟩

/-- A user_folder-kind Label Occurrence. -/
def userSource (v : String) : TagSource := ⟨SourceType.user_folder, v⟩

/-- The occurrence multiset of the spec's end-to-end grouping scenario:
`"dresses" ×3, "dress" ×5, "dresed" ×1`. -/
def scenarioSources : List TagSource :=
  [fileSource "dresses", fileSource "dresses", fileSource "dresses",
   fileSource "dress", fileSource "dress", fileSource "dress",
   fileSource "dress", fileSource "dress", fileSource "dresed"]

/-- Occurrences with a user-sourced low-count value `"apple"` and a
filename-sourced high-count near-duplicate `"apples"`. -/
def appleSources : List TagSource :=
  [userSource "apple", fileSource "apples", fileSource "apples",
   fileSource "apples", fileSource "apples", fileSource "apples"]

/-- A placeholder group for out-of-range list indexing in closed statements. -/
def dummyGroup : String × TagGroup := ("", ⟨[], [], 0⟩)

/-- Occurrences `"latix"` and `"latex_wear"`: two singleton clusters that are
both curated-canonicalized to `"latex"`, so the later cluster overwrites the
earlier one in the canonical-keyed map. -/
def latixSources : List TagSource := [fileSource "latix", fileSource "latex_wear"]

/-- Occurrences `"latex"` and `"latex_wear"`: the value `"latex"` is itself a
curated canonical label, and the `"latex_wear"` cluster's final store evicts
the `"latex"` cluster from the map. -/
def latexSources : List TagSource := [fileSource "latex", fileSource "latex_wear"]

/-- A single occurrence of the literal curated pattern `"latx"`. -/
def latxSources : List TagSource := [fileSource "latx"]

/-- The third Tag Variant computed from `latxSources`. -/
def latxVariant : TagVariant := ⟨"latex", ["latx"], 1, [fileSource "latx"], 1⟩

/-- The third entry of the final cluster map of `latxSources`. -/
def latxEntry : String × TagGroup := ("latex", ⟨["latx"], [fileSource "latx"], 1⟩)

/-- The third entry of the final cluster map of `appleSources`. -/
def appleEntry : String × TagGroup :=
  ("apples", ⟨["apple", "apples"],
    [userSource "apple", fileSource "apples", fileSource "apples",
     fileSource "apples", fileSource "apples", fileSource "apples"], ⟨5, 6⟩⟩)

/-- A two-variant vocabulary: `"latex"` with alias `"latx"`, and `"lates"`
(whose only index token `"lat"` is 0.75-similar to the query token `"latx"`,
so it is found by fuzzy matching only). -/
def witnessVocab : List TagVariant :=
  [⟨"lates", [], 9, [], 1⟩, ⟨"latex", ["latx"], 5, [], 1⟩]

/-! ### Basic lemmas -/

lemma string_length_eq_zero_iff (s : String) : s.length = 0 ↔ s = "" := by
  obtain ⟨data⟩ := s
  simp only [String.length]
  constructor
  · intro h
    have hd : data = [] := List.length_eq_zero.mp h
    rw [hd]
  · intro h
    have hd : data = [] := congrArg String.data h
    simp [hd]

lemma length_ne_of_string_ne (a b : String) (h : a.length ≠ b.length) : a ≠ b := by
  intro hab
  exact h (by rw [hab])

/-- C6, amended: for non-empty strings whose lengths differ by more than the
configured maximum distance 3, `levenshteinDistance` returns
`maxDistance + 1 = 4` (the DP table is never consulted: the definition
returns through the fast-reject branch). -/
theorem claim6_amended (a b : String) (ha : a ≠ "") (hb : b ≠ "")
    (hd : ((a.length : Int) - (b.length : Int)).natAbs > FUZZY_maxDistance) :
    levenshteinDistance a b = FUZZY_maxDistance + 1 := by
  have hlen : a.length ≠ b.length := by
    intro h
    rw [h] at hd
    simp [FUZZY_maxDistance] at hd
  have hne : a ≠ b := length_ne_of_string_ne a b hlen
  have ha0 : a.length ≠ 0 := fun h => ha ((string_length_eq_zero_iff a).mp h)
  have hb0 : b.length ≠ 0 := fun h => hb ((string_length_eq_zero_iff b).mp h)
  unfold levenshteinDistance
  rw [if_neg hne, if_neg ha0, if_neg hb0, if_pos hd]

/-- Witness for C6's amended theorem at the concrete pair `("ab", "abcdefgh")`. -/
theorem claim6_witness :
    ("ab" : String) ≠ "" ∧ ("abcdefgh" : String) ≠ "" ∧
    ((("ab" : String).length : Int) - (("abcdefgh" : String).length : Int)).natAbs >
      FUZZY_maxDistance ∧
    levenshteinDistance "ab" "abcdefgh" = FUZZY_maxDistance + 1 :=
  ⟨by decide, by decide, by decide,
   claim6_amended "ab" "abcdefgh" (by decide) (by decide) (by decide)⟩

/-- C6, counterexample to the claim as stated: for the pair `("", "abcde")`
the length difference exceeds 3, yet the function returns `5` (the length of
the non-empty string), not `maxDistance + 1 = 4` — the empty-string early
return precedes the fast reject. -/
theorem claim6_counterexample :
    ((("" : String).length : Int) - (("abcde" : String).length : Int)).natAbs >
      FUZZY_maxDistance ∧
    levenshteinDistance "" "abcde" = 5 ∧
    levenshteinDistance "" "abcde" ≠ FUZZY_maxDistance + 1 := by
  refine ⟨by decide, ?_, ?_⟩ <;> decide

/-- C7: an edit-distance comparison between the empty string and a non-empty
string is defined (the embedded function is total, mirroring the early-return
branches of the source) and returns the length of the non-empty string. -/
theorem claim7_theorem (s : String) (hs : s ≠ "") :
    levenshteinDistance "" s = s.length ∧ levenshteinDistance s "" = s.length := by
  have hs0 : s.length ≠ 0 := fun h => hs ((string_length_eq_zero_iff s).mp h)
  constructor
  · unfold levenshteinDistance
    by_cases h : ("" : String) = s
    · rw [if_pos h, ← h]
      rfl
    · rw [if_neg h, if_pos (show ("" : String).length = 0 from rfl)]
  · unfold levenshteinDistance
    by_cases h : s = ""
    · exact absurd h hs
    · rw [if_neg h, if_neg hs0, if_pos (show ("" : String).length = 0 from rfl)]

/-- Witness for C7 at the concrete string `"abc"`. -/
theorem claim7_witness :
    ("abc" : String) ≠ "" ∧
    (levenshteinDistance "" "abc" = ("abc" : String).length ∧
     levenshteinDistance "abc" "" = ("abc" : String).length) :=
  ⟨by decide, claim7_theorem "abc" (by decide)⟩

/-- C8, counterexample to the claim as stated: on `"as"` the rule `s→""`
matches with a stem of length 1, so under the claimed guard (stem length ≥ 1)
the word would normalize to `"a"`, but the source guard
`word.length > suffix.length + 1` requires a stem of length ≥ 2 and the code
leaves `"as"` unchanged. -/
theorem claim8_counterexample :
    normalizePlural "as" = "as" ∧ claimNormalizePlural "as" = "a" ∧
    normalizePlural "as" ≠ claimNormalizePlural "as" := by
  refine ⟨?_, ?_, ?_⟩ <;> decide

lemma applyPluralRules_eq_amended (word : String) (rules : List (String × String)) :
    applyPluralRules word rules = amendedApplyPluralRules word rules := by
  induction rules with
  | nil => rfl
  | cons rule rest ih =>
    obtain ⟨suffix, replacement⟩ := rule
    simp only [applyPluralRules, amendedApplyPluralRules]
    have hcond : (strEndsWith word suffix && decide (word.length > suffix.length + 1)) =
        (strEndsWith word suffix && decide (word.length - suffix.length ≥ 2)) := by
      cases strEndsWith word suffix
      · rfl
      · simp only [Bool.true_and]
        have : (word.length > suffix.length + 1) ↔ (word.length - suffix.length ≥ 2) := by
          omega
        simp [this]
    rw [hcond]
    by_cases hc : (strEndsWith word suffix && decide (word.length - suffix.length ≥ 2)) = true
    · rw [if_pos hc, if_pos hc]
    · rw [if_neg hc, if_neg hc]
      exact ih

/-- C8, amended: the tokenizer's plural normalization applies the ordered
suffix rules `ies→y`, `ves→f`, `ses→s`, `es→""`, `s→""`, first applicable rule
wins, and each rule is guarded so that it applies exactly when the word keeps
a stem of length at least 2 beyond the suffix. -/
theorem claim8_theorem (word : String) :
    normalizePlural word = amendedNormalizePlural word :=
  applyPluralRules_eq_amended word pluralRules

/-! ### Claim C2: canonical selection -/

lemma curatedLookup_eq_find (members : List String) :
    ∀ table : List (String × List String),
    curatedLookup members table =
      (table.find? fun entry =>
        entry.1 ∈ members || entry.2.any (· ∈ members)).map Prod.fst := by
  intro table
  induction table with
  | nil => rfl
  | cons entry rest ih =>
    obtain ⟨c, pats⟩ := entry
    simp only [curatedLookup]
    by_cases h1 : c ∈ members
    · rw [if_pos h1, List.find?_cons_of_pos _ (by simp [h1])]
      rfl
    · rw [if_neg h1]
      by_cases h2 : pats.any (fun p => decide (p ∈ members)) = true
      · rw [if_pos h2, List.find?_cons_of_pos _ (by simp [h1, h2])]
        rfl
      · rw [if_neg h2, List.find?_cons_of_neg _ (by simp [h1]; simpa using h2)]
        exact ih

lemma scanStep_best_cases (tc : List (String × CountEntry)) (st : ScanState)
    (m : String) : scanStep tc st m = st ∨
      (scanStep tc st m).best = m ∧
      (scanStep tc st m).maxCount = countOf tc m ∧
      (scanStep tc st m).maxCompleteness = splitSpaceLen m := by
  simp only [scanStep]
  by_cases hu : hasUserSource tc m = true ∧ hasUserSource tc st.best = false
  · rw [if_pos hu]
    exact Or.inr ⟨rfl, rfl, rfl⟩
  · rw [if_neg hu]
    by_cases hgt : countOf tc m > st.maxCount
    · rw [if_pos hgt]
      by_cases h2 : countOf tc m = (ScanState.mk m (countOf tc m) (splitSpaceLen m)).maxCount ∧
          splitSpaceLen m > (ScanState.mk m (countOf tc m) (splitSpaceLen m)).maxCompleteness
      · exact absurd h2 (by simp)
      · rw [if_neg h2]
        exact Or.inr ⟨rfl, rfl, rfl⟩
    · rw [if_neg hgt]
      by_cases h2 : countOf tc m = st.maxCount ∧ splitSpaceLen m > st.maxCompleteness
      · rw [if_pos h2]
        exact Or.inr ⟨rfl, h2.1.symm, rfl⟩
      · rw [if_neg h2]
        exact Or.inl rfl

lemma foldl_scanStep_eq_amendedScan (tc : List (String × CountEntry)) :
    ∀ (l : List String) (st : ScanState),
    st.maxCount = countOf tc st.best → st.maxCompleteness = splitSpaceLen st.best →
    (l.foldl (scanStep tc) st).best = amendedScan tc st.best l := by
  intro l
  induction l with
  | nil =>
    intro st h1 h2
    rfl
  | cons m rest ih =>
    intro st h1 h2
    rw [List.foldl_cons]
    simp only [amendedScan]
    by_cases hu : hasUserSource tc m = true ∧ hasUserSource tc st.best = false
    · have hstep : scanStep tc st m = ⟨m, countOf tc m, splitSpaceLen m⟩ := by
        simp only [scanStep]
        rw [if_pos hu]
      rw [if_pos hu, hstep]
      exact ih _ rfl rfl
    · rw [if_neg hu]
      by_cases hgt : countOf tc m > countOf tc st.best
      · have hgt' : countOf tc m > st.maxCount := h1 ▸ hgt
        have hstep : scanStep tc st m = ⟨m, countOf tc m, splitSpaceLen m⟩ := by
          simp only [scanStep]
          rw [if_neg hu, if_pos hgt']
          rw [if_neg (by simp)]
        rw [if_pos hgt, hstep]
        exact ih _ rfl rfl
      · have hgt' : ¬ countOf tc m > st.maxCount := h1 ▸ hgt
        rw [if_neg hgt]
        by_cases heq : countOf tc m = countOf tc st.best ∧ splitSpaceLen m > splitSpaceLen st.best
        · have heq' : countOf tc m = st.maxCount ∧ splitSpaceLen m > st.maxCompleteness := by
            rw [h1, h2]
            exact heq
          have hstep : scanStep tc st m = ⟨m, st.maxCount, splitSpaceLen m⟩ := by
            simp only [scanStep]
            rw [if_neg hu, if_neg hgt', if_pos heq']
          rw [if_pos heq, hstep]
          exact ih _ (h1.trans heq.1.symm) rfl
        · have heq' : ¬ (countOf tc m = st.maxCount ∧ splitSpaceLen m > st.maxCompleteness) := by
            rw [h1, h2]
            exact heq
          have hstep : scanStep tc st m = st := by
            simp only [scanStep]
            rw [if_neg hu, if_neg hgt', if_neg heq']
          rw [if_neg heq, hstep]
          exact ih st h1 h2

/-- C2, amended: canonical selection first applies the curated rule (i)
unchanged — if a curated canonical label or one of its pattern strings is
literally a cluster member, that canonical label is returned — and otherwise
performs a single left-to-right scan starting from the first member, where at
each member the first applicable action wins: a member with a user_folder- or
manual-kind source replaces a best candidate lacking one; otherwise a strictly
higher raw occurrence count replaces the best candidate; otherwise an equal
count with strictly more space-delimited segments replaces it.  (A later
higher-count member can therefore displace an earlier user-sourced candidate:
the user-source rule is not a separate priority tier.) -/
theorem claim2_theorem (members : List String) (tc : List (String × CountEntry)) :
    selectCanonicalTag members tc = amendedSelectCanonical members tc := by
  unfold selectCanonicalTag amendedSelectCanonical
  rw [curatedLookup_eq_find]
  show (match claimCuratedFind members with
        | some canonical => canonical
        | none => match members with
          | [] => ""
          | m0 :: _ => (members.foldl (scanStep tc) ⟨m0, countOf tc m0, splitSpaceLen m0⟩).best) =
      (match claimCuratedFind members with
        | some canonical => canonical
        | none => match members with
          | [] => ""
          | m0 :: _ => amendedScan tc m0 members)
  cases claimCuratedFind members with
  | some canonical => rfl
  | none =>
    cases members with
    | nil => rfl
    | cons m0 rest =>
      exact foldl_scanStep_eq_amendedScan tc (m0 :: rest) ⟨m0, countOf tc m0, splitSpaceLen m0⟩ rfl rfl

/-- C2, counterexample to the claim as stated: on the occurrence list
`appleSources` the grouping engine forms the cluster `["apple", "apples"]`
(with curated entries also keyed, unchanged in membership), where `"apple"` has
a user_folder-kind source and raw count 1 while `"apples"` has only a
filename-kind source and raw count 5; the claimed priority order (rule (ii)
first match wins) selects `"apple"`, but the code selects `"apples"`: the
count rule overrides the user-source rule for later members. -/
theorem claim2_counterexample :
    ((groupTags appleSources).getD 2 dummyGroup).2.members = ["apple", "apples"] ∧
    ((groupTags appleSources).getD 2 dummyGroup).1 = "apples" ∧
    selectCanonicalTag ["apple", "apples"] (buildTagCounts appleSources) = "apples" ∧
    claimSelectCanonical ["apple", "apples"] (buildTagCounts appleSources) = "apple" ∧
    hasUserSource (buildTagCounts appleSources) "apple" = true ∧
    hasUserSource (buildTagCounts appleSources) "apples" = false := by
  refine ⟨?_, ?_, ?_, ?_, ?_, ?_⟩ <;> decide

/-! ### Claims C5, C1, C3, C4: counterexamples and decidable parts -/

/-- C5, counterexample to the claim as stated: grouping
`["dresses" ×3, "dress" ×5, "dresed" ×1]` does not yield exactly one Tag
Variant — it yields three, because the length-difference fast reject caps the
edit distance at `maxDistance + 1 = 4`, which makes every short member
`0.7`-"similar" to the long curated patterns of `"forced feminization"` and
`"crossdressing"`, so the curated-pattern pass stores the cluster under those
canonical keys as well. -/
theorem claim5_counterexample :
    (normalizeAndGroupTags scenarioSources).length = 3 ∧
    (normalizeAndGroupTags scenarioSources).length ≠ 1 := by
  refine ⟨?_, ?_⟩ <;> decide

/-- C5, amended: grouping `["dresses" ×3, "dress" ×5, "dresed" ×1]` yields
exactly three Tag Variants.  One has canonical `"dress"` (selected by the
curated rule, `"dress"` being literally a member), aliases exactly
`{"dresses", "dresed"}` and count 9.  The other two carry the curated
canonicals `"forced feminization"` and `"crossdressing"`, attached to the same
cluster because the fast-reject-capped distance 4 makes the short members
0.7-similar to those entries' long pattern strings; each also has count 9. -/
theorem claim5_amended :
    (normalizeAndGroupTags scenarioSources).map TagVariant.canonical =
      ["forced feminization", "crossdressing", "dress"] ∧
    ((normalizeAndGroupTags scenarioSources).getD 2 dummyVariant).aliases =
      ["dresses", "dresed"] ∧
    ((normalizeAndGroupTags scenarioSources).getD 2 dummyVariant).count = 9 ∧
    ((normalizeAndGroupTags scenarioSources).getD 0 dummyVariant).count = 9 ∧
    ((normalizeAndGroupTags scenarioSources).getD 1 dummyVariant).count = 9 := by
  refine ⟨?_, ?_, ?_, ?_, ?_⟩ <;> decide

/-- C1, counterexample to the claim as stated: in
`latixSources = ["latix", "latex_wear"]` the raw value `"latix"` occurs, yet
it appears in no returned Tag Variant at all (neither as a canonical nor in
any alias set): its cluster was stored under the curated key `"latex"` and
then overwritten by the `"latex_wear"` cluster, which selects the same
canonical. -/
theorem claim1_counterexample :
    rawCount latixSources "latix" = 1 ∧
    (normalizeAndGroupTags latixSources).countP
      (fun v => decide (v.canonical = "latix" ∨ "latix" ∈ v.aliases)) = 0 := by
  refine ⟨?_, ?_⟩ <;> decide

/-- C3, counterexample to the claim as stated: for the single occurrence
`"latx"`, the final cluster map contains the entry keyed `"latex"` whose
member set is `["latx"]`: the canonical `"latex"` is not a member of its own
equivalence class (it is not even an occurring value), and the corresponding
output variant has canonical `"latex"` with aliases `["latx"]`. -/
theorem claim3_counterexample :
    ((groupTags latxSources).getD 2 dummyGroup).1 = "latex" ∧
    ((groupTags latxSources).getD 2 dummyGroup).2.members = ["latx"] ∧
    "latex" ∉ ((groupTags latxSources).getD 2 dummyGroup).2.members ∧
    rawCount latxSources "latex" = 0 ∧
    ((normalizeAndGroupTags latxSources).getD 2 dummyVariant).canonical = "latex" ∧
    ((normalizeAndGroupTags latxSources).getD 2 dummyVariant).aliases = ["latx"] := by
  refine ⟨?_, ?_, ?_, ?_, ?_, ?_⟩ <;> decide

/-- C4, counterexample to the claim as stated: for
`latexSources = ["latex", "latex_wear"]` the returned variant with canonical
`"latex"` has `count = 1`, but the raw occurrence count of its canonical plus
the raw counts of all its aliases is `1 + 1 = 2`: the curated overwrite left a
cluster whose member set no longer contains the canonical, and the canonical's
own occurrences are not counted. -/
theorem claim4_counterexample :
    ((normalizeAndGroupTags latexSources).getD 2 dummyVariant).canonical = "latex" ∧
    ((normalizeAndGroupTags latexSources).getD 2 dummyVariant).aliases = ["latex_wear"] ∧
    ((normalizeAndGroupTags latexSources).getD 2 dummyVariant).count = 1 ∧
    rawCount latexSources "latex" +
      (((normalizeAndGroupTags latexSources).getD 2 dummyVariant).aliases.map
        (rawCount latexSources)).sum = 2 := by
  refine ⟨?_, ?_, ?_, ?_⟩ <;> decide

/-! ### Frequency-map lemmas -/

lemma countOf_tagCountsUpsert (m : List (String × CountEntry)) (src : TagSource)
    (k : String) :
    countOf (tagCountsUpsert m src) k =
      countOf m k + (if src.value = k then 1 else 0) := by
  induction m with
  | nil =>
    simp only [tagCountsUpsert, countOf, lookupEntry]
    by_cases h : src.value = k
    · rw [if_pos h, if_pos h]
      rfl
    · rw [if_neg h, if_neg h]
      rfl
  | cons e rest ih =>
    obtain ⟨k', entry⟩ := e
    simp only [tagCountsUpsert]
    by_cases h : k' = src.value
    · rw [if_pos h]
      simp only [countOf, lookupEntry]
      by_cases h2 : k' = k
      · rw [if_pos h2, if_pos h2]
        have : src.value = k := h ▸ h2
        rw [if_pos this]
        rfl
      · rw [if_neg h2, if_neg h2]
        have : ¬ src.value = k := fun hc => h2 (h.trans hc)
        rw [if_neg this]
        simp
    · rw [if_neg h]
      simp only [countOf, lookupEntry]
      by_cases h2 : k' = k
      · rw [if_pos h2, if_pos h2]
        have : ¬ src.value = k := fun hc => h (h2.trans hc.symm)
        rw [if_neg this]
        simp
      · rw [if_neg h2, if_neg h2]
        exact ih

lemma countOf_foldl_upsert (srcs : List TagSource) :
    ∀ (m : List (String × CountEntry)) (k : String),
    countOf (srcs.foldl tagCountsUpsert m) k = countOf m k + rawCount srcs k := by
  induction srcs with
  | nil =>
    intro m k
    simp [rawCount]
  | cons s rest ih =>
    intro m k
    rw [List.foldl_cons]
    rw [ih (tagCountsUpsert m s) k, countOf_tagCountsUpsert]
    simp only [rawCount, List.countP_cons]
    by_cases h : s.value = k
    · rw [if_pos h]
      simp [h, rawCount]
      omega
    · rw [if_neg h]
      simp [h, rawCount]

lemma countOf_buildTagCounts (srcs : List TagSource) (k : String) :
    countOf (buildTagCounts srcs) k = rawCount srcs k := by
  rw [buildTagCounts, countOf_foldl_upsert]
  simp [countOf, lookupEntry]

lemma mem_keys_of_countOf_ne_zero (m : List (String × CountEntry)) (k : String)
    (h : countOf m k ≠ 0) : k ∈ m.map Prod.fst := by
  induction m with
  | nil => exact absurd rfl h
  | cons e rest ih =>
    obtain ⟨k', entry⟩ := e
    simp only [countOf, lookupEntry] at h
    by_cases h2 : k' = k
    · simp [h2]
    · rw [if_neg h2] at h
      simp only [List.map_cons, List.mem_cons]
      exact Or.inr (ih h)

/-! ### Absorption-phase invariant -/

/-- State invariant of the three strategy passes for one seed `tag`, relative
to the previously processed set `P0`: the processed set is exactly `P0`
followed by the group's members, stays duplicate-free, and contains the
seed among the members. -/
def AbsorbInv (P0 : List String) (tag : String) (st : TagGroup × List String) : Prop :=
  st.2 = P0 ++ st.1.members ∧ st.2.Nodup ∧ tag ∈ st.1.members

lemma absorbStep_inv (tc : List (String × CountEntry)) (cond : String → String → Bool)
    (P0 : List String) (tag : String) (st : TagGroup × List String) (o : String)
    (h : AbsorbInv P0 tag st) : AbsorbInv P0 tag (absorbStep tc cond tag st o) := by
  obtain ⟨heq, hnd, htag⟩ := h
  unfold absorbStep
  by_cases hg : o ∈ st.2 ∨ tag = o
  · rw [if_pos hg]
    exact ⟨heq, hnd, htag⟩
  · rw [if_neg hg]
    by_cases hc : cond tag o = true
    · rw [if_pos hc]
      have ho : o ∉ st.2 := fun hx => hg (Or.inl hx)
      have hom : o ∉ st.1.members := fun hx => ho (heq ▸ List.mem_append_right P0 hx)
      have hset : setAdd st.1.members o = st.1.members ++ [o] := by
        rw [setAdd, if_neg hom]
      refine ⟨?_, ?_, ?_⟩
      · show st.2 ++ [o] = P0 ++ (setAdd st.1.members o)
        rw [hset, heq, List.append_assoc]
      · show (st.2 ++ [o]).Nodup
        simp [List.nodup_append, hnd, ho]
      · show tag ∈ setAdd st.1.members o
        rw [hset]
        exact List.mem_append_left _ htag
    · rw [if_neg hc]
      exact ⟨heq, hnd, htag⟩

lemma foldl_absorbStep_inv (tc : List (String × CountEntry))
    (cond : String → String → Bool) (P0 : List String) (tag : String) :
    ∀ (l : List String) (st : TagGroup × List String), AbsorbInv P0 tag st →
    AbsorbInv P0 tag (l.foldl (absorbStep tc cond tag) st) := by
  intro l
  induction l with
  | nil => intro st h; exact h
  | cons o rest ih =>
    intro st h
    rw [List.foldl_cons]
    exact ih _ (absorbStep_inv tc cond P0 tag st o h)

lemma absorbAll_inv (tc : List (String × CountEntry)) (uniq : List String)
    (P0 : List String) (tag : String) (hnd : P0.Nodup) (htag : tag ∉ P0) :
    AbsorbInv P0 tag (absorbAll tc uniq P0 tag) := by
  have h0 : AbsorbInv P0 tag (⟨[tag], sourcesOf tc tag, 1⟩, P0 ++ [tag]) := by
    refine ⟨rfl, ?_, by simp⟩
    simp [List.nodup_append, hnd, htag]
  unfold absorbAll
  simp only [FUZZY_enableSubsetMatching, FUZZY_enableRearrangement, if_true]
  exact foldl_absorbStep_inv tc areRearrangements P0 tag uniq _
    (foldl_absorbStep_inv tc subsetMatch P0 tag uniq _
      (foldl_absorbStep_inv tc directMatch P0 tag uniq _ h0))

/-! ### Cluster partition (claim C1, amended) -/

/-- Invariant of the cluster-collection fold: the recorded clusters' members,
concatenated, are exactly the processed set, which is duplicate-free. -/
def ClusterInv (st : List String × List (List String)) : Prop :=
  st.2.flatten = st.1 ∧ st.1.Nodup

lemma rawClusterStep_inv (tc : List (String × CountEntry)) (uniq : List String)
    (st : List String × List (List String)) (tag : String) (h : ClusterInv st) :
    ClusterInv (rawClusterStep tc uniq st tag) ∧
    (∀ x ∈ st.1, x ∈ (rawClusterStep tc uniq st tag).1) ∧
    tag ∈ (rawClusterStep tc uniq st tag).1 := by
  obtain ⟨hjoin, hnd⟩ := h
  unfold rawClusterStep
  by_cases hin : tag ∈ st.1
  · rw [if_pos hin]
    exact ⟨⟨hjoin, hnd⟩, fun x hx => hx, hin⟩
  · rw [if_neg hin]
    obtain ⟨heq, hnd', htag⟩ := absorbAll_inv tc uniq st.1 tag hnd hin
    refine ⟨⟨?_, ?_⟩, ?_, ?_⟩
    · show (st.2 ++ [(absorbAll tc uniq st.1 tag).1.members]).flatten =
        (absorbAll tc uniq st.1 tag).2
      rw [List.flatten_append, hjoin, heq]
      simp
    · exact hnd'
    · intro x hx
      show x ∈ (absorbAll tc uniq st.1 tag).2
      rw [heq]
      exact List.mem_append_left _ hx
    · show tag ∈ (absorbAll tc uniq st.1 tag).2
      rw [heq]
      exact List.mem_append_right _ htag

lemma foldl_rawClusterStep_inv (tc : List (String × CountEntry)) (uniq : List String) :
    ∀ (l : List String) (st : List String × List (List String)), ClusterInv st →
    ClusterInv (l.foldl (rawClusterStep tc uniq) st) ∧
    (∀ x ∈ st.1, x ∈ (l.foldl (rawClusterStep tc uniq) st).1) ∧
    (∀ t ∈ l, t ∈ (l.foldl (rawClusterStep tc uniq) st).1) := by
  intro l
  induction l with
  | nil =>
    intro st h
    exact ⟨h, fun x hx => hx, by simp⟩
  | cons t rest ih =>
    intro st h
    rw [List.foldl_cons]
    obtain ⟨h', hmono, hself⟩ := rawClusterStep_inv tc uniq st t h
    obtain ⟨hfin, hmonoRest, hcov⟩ := ih _ h'
    refine ⟨hfin, ?_, ?_⟩
    · intro x hx
      exact hmonoRest x (hmono x hx)
    · intro u hu
      rcases List.mem_cons.mp hu with hu | hu
      · subst hu
        exact hmonoRest u hself
      · exact hcov u hu

lemma countP_flatten_nodup (parts : List (List String)) (x : String)
    (hnd : parts.flatten.Nodup) (hx : x ∈ parts.flatten) :
    parts.countP (fun c => decide (x ∈ c)) = 1 := by
  induction parts with
  | nil => simp at hx
  | cons c rest ih =>
    rw [List.flatten_cons] at hnd hx
    rw [List.countP_cons]
    rcases List.mem_append.mp hx with hc | hr
    · have hdisj : x ∉ rest.flatten := by
        intro hx2
        exact (List.disjoint_of_nodup_append hnd) hc hx2
      have h0 : rest.countP (fun c => decide (x ∈ c)) = 0 := by
        rw [List.countP_eq_zero]
        intro part hpart
        simp only [decide_eq_true_eq]
        intro hxp
        exact hdisj (List.mem_flatten.mpr ⟨part, hpart, hxp⟩)
      simp [h0, hc]
    · have hnc : x ∉ c := by
        intro hx2
        exact (List.disjoint_of_nodup_append hnd) hx2 hr
      have h1 := ih (List.Nodup.of_append_right hnd) hr
      simp [h1, hnc]

/-- C1, amended: every input Label Occurrence's raw value is a member of
exactly one of the clusters formed by the absorption passes (strategies 1-3)
of the grouping loop.  (At the level of the final Tag Variant list the claim
fails in both directions: the curated-pattern pass stores clusters under
curated canonical keys and later clusters overwrite earlier ones stored under
the same canonical, so a value can vanish from the output or appear in
several variants.) -/
theorem claim1_amended (allTagSources : List TagSource) (s : TagSource)
    (hs : s ∈ allTagSources) :
    (rawClusters allTagSources).countP (fun c => decide (s.value ∈ c)) = 1 := by
  have hraw : rawCount allTagSources s.value ≠ 0 := by
    have : 0 < List.countP (fun t => decide (t.value = s.value)) allTagSources :=
      List.countP_pos_iff.mpr ⟨s, hs, by simp⟩
    simp only [rawCount]
    omega
  have hcount : countOf (buildTagCounts allTagSources) s.value ≠ 0 := by
    rw [countOf_buildTagCounts]
    exact hraw
  have hmem : s.value ∈ (buildTagCounts allTagSources).map Prod.fst :=
    mem_keys_of_countOf_ne_zero _ _ hcount
  unfold rawClusters
  obtain ⟨⟨hflat, hnd⟩, _, hcov⟩ :=
    foldl_rawClusterStep_inv (buildTagCounts allTagSources)
      ((buildTagCounts allTagSources).map Prod.fst)
      ((buildTagCounts allTagSources).map Prod.fst) ([], []) ⟨rfl, List.nodup_nil⟩
  exact countP_flatten_nodup _ _ (hflat ▸ hnd) (hflat ▸ hcov s.value hmem)

/-- Witness for C1's amended theorem: in the scenario occurrence list the
value `"dress"` lies in exactly one absorption-phase cluster. -/
theorem claim1_witness :
    fileSource "dress" ∈ scenarioSources ∧
    (rawClusters scenarioSources).countP
      (fun c => decide ((fileSource "dress").value ∈ c)) = 1 :=
  ⟨by decide, claim1_amended scenarioSources (fileSource "dress") (by decide)⟩

/-! ### Final-map entry invariant (claims C3 and C4, amended) -/

/-- Every entry of the final `tagGroups` map has a duplicate-free member set,
and its key is either one of its own members or a curated canonical label. -/
def EntryOk (e : String × TagGroup) : Prop :=
  e.2.members.Nodup ∧
  (e.1 ∈ e.2.members ∨ e.1 ∈ COMMON_TAG_PATTERNS.map Prod.fst)

lemma mapSet_forall (P : String × TagGroup → Prop) :
    ∀ (m : List (String × TagGroup)) (k : String) (v : TagGroup),
    (∀ e ∈ m, P e) → P (k, v) → ∀ e ∈ mapSet m k v, P e := by
  intro m
  induction m with
  | nil =>
    intro k v _ hkv e he
    simp only [mapSet, List.mem_singleton] at he
    exact he ▸ hkv
  | cons e0 rest ih =>
    intro k v hm hkv e he
    obtain ⟨k0, v0⟩ := e0
    simp only [mapSet] at he
    by_cases h : k0 = k
    · rw [if_pos h] at he
      rcases List.mem_cons.mp he with he | he
      · exact he ▸ hkv
      · exact hm e (List.mem_cons_of_mem _ he)
    · rw [if_neg h] at he
      rcases List.mem_cons.mp he with he | he
      · exact hm e (he ▸ List.mem_cons_self _ _)
      · exact ih k v (fun e' he' => hm e' (List.mem_cons_of_mem _ he')) hkv e he

lemma strategy4_forall (g : TagGroup) (hg : g.members.Nodup) :
    ∀ (table : List (String × List String)) (tgs : List (String × TagGroup)),
    (∀ e ∈ tgs, EntryOk e) → ∀ e ∈ (table.foldl
      (fun tgs entry =>
        if entry.2.any (fun pattern =>
            g.members.any fun member =>
              FUZZY_minSimilarity ≤ calculateSimilarity member pattern) then
          mapSet tgs entry.1
            ⟨entry.1 :: g.members.filter (· ≠ entry.1), g.sources,
             Score.min (g.confidence + 1/5) 1⟩
        else tgs)
      tgs), EntryOk e := by
  intro table
  induction table with
  | nil => intro tgs h; exact h
  | cons entry rest ih =>
    intro tgs h
    rw [List.foldl_cons]
    by_cases hc : entry.2.any (fun pattern =>
        g.members.any fun member =>
          FUZZY_minSimilarity ≤ calculateSimilarity member pattern) = true
    · rw [if_pos hc]
      refine ih _ (mapSet_forall EntryOk tgs entry.1 _ h ?_)
      constructor
      · simp only []
        refine List.Nodup.cons ?_ (List.Nodup.filter _ hg)
        intro hmem
        have := List.of_mem_filter hmem
        simp at this
      · exact Or.inl (List.mem_cons_self _ _)
    · rw [if_neg hc]
      exact ih _ h

lemma foldl_scanStep_best_mem (tc : List (String × CountEntry)) :
    ∀ (l : List String) (st : ScanState),
    (l.foldl (scanStep tc) st).best = st.best ∨ (l.foldl (scanStep tc) st).best ∈ l := by
  intro l
  induction l with
  | nil => intro st; exact Or.inl rfl
  | cons m rest ih =>
    intro st
    rw [List.foldl_cons]
    rcases ih (scanStep tc st m) with h | h
    · rcases scanStep_best_cases tc st m with h2 | h2
      · exact Or.inl (h.trans (congrArg ScanState.best h2))
      · refine Or.inr ?_
        rw [h, h2.1]
        exact List.mem_cons_self _ _
    · exact Or.inr (List.mem_cons_of_mem _ h)

lemma curatedLookup_mem_keys (members : List String) :
    ∀ (table : List (String × List String)) (c : String),
    curatedLookup members table = some c → c ∈ table.map Prod.fst := by
  intro table
  induction table with
  | nil => intro c h; exact absurd h (by simp [curatedLookup])
  | cons entry rest ih =>
    intro c h
    obtain ⟨c0, pats⟩ := entry
    simp only [curatedLookup] at h
    by_cases h1 : c0 ∈ members
    · rw [if_pos h1] at h
      injection h with h
      simp [h]
    · rw [if_neg h1] at h
      by_cases h2 : pats.any (fun p => decide (p ∈ members)) = true
      · rw [if_pos h2] at h
        injection h with h
        simp [h]
      · rw [if_neg h2] at h
        exact List.mem_cons_of_mem _ (ih c h)

lemma selectCanonicalTag_cases (members : List String) (tc : List (String × CountEntry))
    (hne : members ≠ []) :
    selectCanonicalTag members tc ∈ members ∨
    selectCanonicalTag members tc ∈ COMMON_TAG_PATTERNS.map Prod.fst := by
  unfold selectCanonicalTag
  cases hcl : curatedLookup members COMMON_TAG_PATTERNS with
  | some c => exact Or.inr (curatedLookup_mem_keys members COMMON_TAG_PATTERNS c hcl)
  | none =>
    cases members with
    | nil => exact absurd rfl hne
    | cons m0 rest =>
      show ((m0 :: rest).foldl (scanStep tc) ⟨m0, countOf tc m0, splitSpaceLen m0⟩).best ∈
          m0 :: rest ∨
        ((m0 :: rest).foldl (scanStep tc) ⟨m0, countOf tc m0, splitSpaceLen m0⟩).best ∈
          COMMON_TAG_PATTERNS.map Prod.fst
      rcases foldl_scanStep_best_mem tc (m0 :: rest)
          ⟨m0, countOf tc m0, splitSpaceLen m0⟩ with h | h
      · refine Or.inl ?_
        rw [h]
        exact List.mem_cons_self _ _
      · exact Or.inl h

lemma processTag_inv (tc : List (String × CountEntry)) (uniq : List String)
    (st : List String × List (String × TagGroup)) (tag : String)
    (h : st.1.Nodup ∧ ∀ e ∈ st.2, EntryOk e) :
    (processTag tc uniq st tag).1.Nodup ∧
    ∀ e ∈ (processTag tc uniq st tag).2, EntryOk e := by
  unfold processTag
  by_cases hin : tag ∈ st.1
  · rw [if_pos hin]
    exact h
  · rw [if_neg hin]
    obtain ⟨heq, hnd', htag⟩ := absorbAll_inv tc uniq st.1 tag h.1 hin
    have hmnd : (absorbAll tc uniq st.1 tag).1.members.Nodup :=
      List.Nodup.of_append_right (heq ▸ hnd')
    have hmne : (absorbAll tc uniq st.1 tag).1.members ≠ [] :=
      List.ne_nil_of_mem htag
    refine ⟨hnd', ?_⟩
    show ∀ e ∈ mapSet (strategy4 (absorbAll tc uniq st.1 tag).1 st.2)
        (selectCanonicalTag (absorbAll tc uniq st.1 tag).1.members tc)
        ⟨(absorbAll tc uniq st.1 tag).1.members, (absorbAll tc uniq st.1 tag).1.sources,
          Score.max (1/10) (calculateGroupCoherence (absorbAll tc uniq st.1 tag).1.members)⟩,
      EntryOk e
    refine mapSet_forall EntryOk _ _ _ ?_ ?_
    · show ∀ e ∈ strategy4 (absorbAll tc uniq st.1 tag).1 st.2, EntryOk e
      unfold strategy4
      exact strategy4_forall _ hmnd COMMON_TAG_PATTERNS st.2 h.2
    · exact ⟨hmnd, selectCanonicalTag_cases _ tc hmne⟩

lemma foldl_processTag_inv (tc : List (String × CountEntry)) (uniq : List String) :
    ∀ (l : List String) (st : List String × List (String × TagGroup)),
    st.1.Nodup ∧ (∀ e ∈ st.2, EntryOk e) →
    (l.foldl (processTag tc uniq) st).1.Nodup ∧
    ∀ e ∈ (l.foldl (processTag tc uniq) st).2, EntryOk e := by
  intro l
  induction l with
  | nil => intro st h; exact h
  | cons t rest ih =>
    intro st h
    rw [List.foldl_cons]
    exact ih _ (processTag_inv tc uniq st t h)

lemma groupTags_entries (allTagSources : List TagSource) :
    ∀ e ∈ groupTags allTagSources, EntryOk e := by
  unfold groupTags
  exact (foldl_processTag_inv (buildTagCounts allTagSources)
    ((buildTagCounts allTagSources).map Prod.fst)
    ((buildTagCounts allTagSources).map Prod.fst) ([], [])
    ⟨List.nodup_nil, by simp⟩).2

/-- C3, amended: for every Tag Variant emitted by `normalizeAndGroupTags` the
aliases list never contains the canonical string, and every entry of the final
cluster map carries a canonical that is either a member of its own equivalence
class or one of the curated canonical labels.  (The curated rules can install
a canonical from outside the cluster — that is the counterexample — so
membership of the canonical in its own class does not hold in general.) -/
theorem claim3_amended (allTagSources : List TagSource) :
    (∀ v ∈ normalizeAndGroupTags allTagSources, v.canonical ∉ v.aliases) ∧
    (∀ e ∈ groupTags allTagSources,
      e.1 ∈ e.2.members ∨ e.1 ∈ COMMON_TAG_PATTERNS.map Prod.fst) := by
  constructor
  · intro v hv
    unfold normalizeAndGroupTags at hv
    have hv' := (List.perm_insertionSort
      (fun a b => variantLe a b = true)
      ((groupTags allTagSources).map (toVariant (buildTagCounts allTagSources)))).mem_iff.mp hv
    obtain ⟨e, _, hve⟩ := List.mem_map.mp hv'
    intro hmem
    rw [← hve] at hmem
    have := List.of_mem_filter hmem
    simp at this
    exact this rfl
  · intro e he
    exact (groupTags_entries allTagSources e he).2

/-- Witness for C3's amended theorem at the concrete input `latxSources`:
the first output variant and the third cluster-map entry. -/
theorem claim3_witness :
    (latxVariant ∈ normalizeAndGroupTags latxSources ∧
     latxVariant.canonical ∉ latxVariant.aliases) ∧
    (latxEntry ∈ groupTags latxSources ∧
     (latxEntry.1 ∈ latxEntry.2.members ∨
      latxEntry.1 ∈ COMMON_TAG_PATTERNS.map Prod.fst)) :=
  ⟨⟨by decide, (claim3_amended latxSources).1 latxVariant (by decide)⟩,
   ⟨by decide, (claim3_amended latxSources).2 latxEntry (by decide)⟩⟩

lemma foldl_add_map_sum (f : String → Nat) :
    ∀ (l : List String) (a : Nat), l.foldl (fun s t => s + f t) a = a + (l.map f).sum := by
  intro l
  induction l with
  | nil => intro a; simp
  | cons t rest ih =>
    intro a
    rw [List.foldl_cons, ih]
    simp [Nat.add_assoc]

/-- C4, amended: for every entry of the final cluster map, the emitted
variant's `count` is the sum of the raw occurrence counts of the cluster's
member set.  When the canonical is itself a member this equals the canonical's
raw count plus the raw counts of all aliases (the claim as stated); when the
curated overwrite installed a canonical from outside the cluster, the
canonical's own raw count is not included and `count` is the sum over the
aliases alone. -/
theorem claim4_amended (allTagSources : List TagSource) (e : String × TagGroup)
    (he : e ∈ groupTags allTagSources) :
    (e.1 ∈ e.2.members →
      (toVariant (buildTagCounts allTagSources) e).count =
        rawCount allTagSources e.1 +
        ((toVariant (buildTagCounts allTagSources) e).aliases.map
          (rawCount allTagSources)).sum) ∧
    (e.1 ∉ e.2.members →
      (toVariant (buildTagCounts allTagSources) e).count =
        ((toVariant (buildTagCounts allTagSources) e).aliases.map
          (rawCount allTagSources)).sum) := by
  have hnd : e.2.members.Nodup := (groupTags_entries allTagSources e he).1
  have hcountfun : countOf (buildTagCounts allTagSources) = rawCount allTagSources :=
    funext fun k => countOf_buildTagCounts allTagSources k
  have hcount : (toVariant (buildTagCounts allTagSources) e).count =
      (e.2.members.map (rawCount allTagSources)).sum := by
    show e.2.members.foldl
        (fun sum tag => sum + countOf (buildTagCounts allTagSources) tag) 0 =
      (e.2.members.map (rawCount allTagSources)).sum
    rw [hcountfun, foldl_add_map_sum]
    simp
  have haliases : (toVariant (buildTagCounts allTagSources) e).aliases =
      e.2.members.filter (· ≠ e.1) := rfl
  constructor
  · intro hmem
    have hperm : e.2.members.Perm (e.1 :: e.2.members.erase e.1) :=
      List.perm_cons_erase hmem
    have hsum : (e.2.members.map (rawCount allTagSources)).sum =
        ((e.1 :: e.2.members.erase e.1).map (rawCount allTagSources)).sum :=
      (hperm.map (rawCount allTagSources)).sum_eq
    have hfe : (fun x : String => decide (x ≠ e.1)) = (fun x => x != e.1) := by
      funext x
      by_cases h : x = e.1 <;> simp [h, bne]
    rw [hcount, hsum, haliases, hfe, ← List.Nodup.erase_eq_filter hnd e.1]
    simp
  · intro hmem
    have hfilter : e.2.members.filter (· ≠ e.1) = e.2.members := by
      apply List.filter_eq_self.mpr
      intro m hm
      simp only [decide_eq_true_eq]
      intro hme
      exact hmem (hme ▸ hm)
    rw [hcount, haliases, hfilter]

/-- Witness for C4's amended theorem at the concrete input `appleSources`:
the cluster entry keyed `"apples"`, whose canonical is a member, so `count`
is the canonical's raw count plus the aliases' raw counts. -/
theorem claim4_witness :
    appleEntry ∈ groupTags appleSources ∧
    appleEntry.1 ∈ appleEntry.2.members ∧
    (toVariant (buildTagCounts appleSources) appleEntry).count =
      rawCount appleSources appleEntry.1 +
      ((toVariant (buildTagCounts appleSources) appleEntry).aliases.map
        (rawCount appleSources)).sum :=
  ⟨by decide, by decide,
   (claim4_amended appleSources appleEntry (by decide)).1 (by decide)⟩

/-! ### Claim C9: title/tag extraction -/

/-- C9: parsing `"Trip Report ,, beach ,, sunset ,, family.jpg"` yields the
title `"Trip Report"` and exactly the three filename-kind Label Occurrences
`"beach"`, `"sunset"`, `"family"`, verbatim (the double-comma branch emits the
trimmed segments without tokenizing them). -/
theorem claim9_theorem :
    extractTitleAndTags "Trip Report ,, beach ,, sunset ,, family.jpg" =
      ("Trip Report",
       [⟨SourceType.filename, "beach"⟩, ⟨SourceType.filename, "sunset"⟩,
        ⟨SourceType.filename, "family"⟩]) := by
  decide

/-! ### Claim C10: search index membership -/

lemma fuzzyGet_fuzzyPush_self :
    ∀ (f : List (String × List Nat)) (tok : String) (i : Nat),
    i ∈ fuzzyGet (fuzzyPush f tok i) tok := by
  intro f
  induction f with
  | nil =>
    intro tok i
    simp [fuzzyPush, fuzzyGet, lookupFuzzy]
  | cons e rest ih =>
    intro tok i
    obtain ⟨t, is⟩ := e
    simp only [fuzzyPush]
    by_cases h : t = tok
    · rw [if_pos h]
      simp [fuzzyGet, lookupFuzzy, h]
    · rw [if_neg h]
      simp only [fuzzyGet, lookupFuzzy]
      rw [if_neg h]
      exact ih tok i

lemma fuzzyGet_fuzzyPush_mono :
    ∀ (f : List (String × List Nat)) (tok tok' : String) (i j : Nat),
    i ∈ fuzzyGet f tok → i ∈ fuzzyGet (fuzzyPush f tok' j) tok := by
  intro f
  induction f with
  | nil =>
    intro tok tok' i j h
    simp [fuzzyGet, lookupFuzzy] at h
  | cons e rest ih =>
    intro tok tok' i j h
    obtain ⟨t, is⟩ := e
    simp only [fuzzyPush]
    by_cases ht : t = tok'
    · rw [if_pos ht]
      simp only [fuzzyGet, lookupFuzzy] at h ⊢
      by_cases ht2 : t = tok
      · rw [if_pos ht2] at h
        rw [if_pos ht2]
        simp only [Option.getD_some] at h ⊢
        exact List.mem_append_left _ h
      · rw [if_neg ht2] at h
        rw [if_neg ht2]
        exact h
    · rw [if_neg ht]
      simp only [fuzzyGet, lookupFuzzy] at h ⊢
      by_cases ht2 : t = tok
      · rw [if_pos ht2] at h ⊢
        exact h
      · rw [if_neg ht2] at h ⊢
        exact ih tok tok' i j h

lemma fuzzyGet_foldl_push_mono (i j : Nat) (tok : String) :
    ∀ (toks : List String) (f : List (String × List Nat)),
    i ∈ fuzzyGet f tok →
    i ∈ fuzzyGet (toks.foldl (fun f' t => fuzzyPush f' t j) f) tok := by
  intro toks
  induction toks with
  | nil => intro f h; exact h
  | cons t rest ih =>
    intro f h
    rw [List.foldl_cons]
    exact ih _ (fuzzyGet_fuzzyPush_mono f tok t i j h)

lemma fuzzyGet_foldl_push_self (j : Nat) (tok : String) :
    ∀ (toks : List String) (f : List (String × List Nat)), tok ∈ toks →
    j ∈ fuzzyGet (toks.foldl (fun f' t => fuzzyPush f' t j) f) tok := by
  intro toks
  induction toks with
  | nil => intro f h; simp at h
  | cons t rest ih =>
    intro f h
    rw [List.foldl_cons]
    rcases List.mem_cons.mp h with h | h
    · subst h
      exact fuzzyGet_foldl_push_mono j j tok rest _ (fuzzyGet_fuzzyPush_self f tok j)
    · exact ih _ h

lemma fuzzyGet_tagFold_mono (i j : Nat) (tok : String) :
    ∀ (tags : List String) (f : List (String × List Nat)),
    i ∈ fuzzyGet f tok →
    i ∈ fuzzyGet (tags.foldl
      (fun f tag => (tokenizeText tag).foldl (fun f' t => fuzzyPush f' t j) f) f) tok := by
  intro tags
  induction tags with
  | nil => intro f h; exact h
  | cons tg rest ih =>
    intro f h
    rw [List.foldl_cons]
    exact ih _ (fuzzyGet_foldl_push_mono i j tok _ f h)

lemma fuzzyGet_tagFold_self (j : Nat) (tok : String) :
    ∀ (tags : List String) (tag : String) (f : List (String × List Nat)),
    tag ∈ tags → tok ∈ tokenizeText tag →
    j ∈ fuzzyGet (tags.foldl
      (fun f tag => (tokenizeText tag).foldl (fun f' t => fuzzyPush f' t j) f) f) tok := by
  intro tags
  induction tags with
  | nil => intro tag f h _; simp at h
  | cons tg rest ih =>
    intro tag f h htok
    rw [List.foldl_cons]
    rcases List.mem_cons.mp h with h | h
    · subst h
      exact fuzzyGet_tagFold_mono j j tok rest _ (fuzzyGet_foldl_push_self j tok _ f htok)
    · exact ih tag _ h htok

lemma indexVariant_fuzzy_self (st : TagSearchIndex) (i : Nat) (v : TagVariant)
    (tag : String) (htag : tag ∈ v.canonical :: v.aliases) (tok : String)
    (htok : tok ∈ tokenizeText tag) :
    i ∈ fuzzyGet (indexVariant st i v).fuzzyIndex tok :=
  fuzzyGet_tagFold_self i tok (v.canonical :: v.aliases) tag st.fuzzyIndex htag htok

lemma indexVariant_fuzzy_mono (st : TagSearchIndex) (i j : Nat) (v : TagVariant)
    (tok : String) (h : i ∈ fuzzyGet st.fuzzyIndex tok) :
    i ∈ fuzzyGet (indexVariant st j v).fuzzyIndex tok :=
  fuzzyGet_tagFold_mono i j tok (v.canonical :: v.aliases) st.fuzzyIndex h

lemma buildIndexAux_fuzzy_mono (i : Nat) (tok : String) :
    ∀ (vs : List TagVariant) (k : Nat) (st : TagSearchIndex),
    i ∈ fuzzyGet st.fuzzyIndex tok →
    i ∈ fuzzyGet (buildIndexAux k vs st).fuzzyIndex tok := by
  intro vs
  induction vs with
  | nil => intro k st h; exact h
  | cons v rest ih =>
    intro k st h
    exact ih (k + 1) _ (indexVariant_fuzzy_mono st i k v tok h)

lemma buildIndexAux_fuzzy_self (tok : String) :
    ∀ (vs : List TagVariant) (k : Nat) (st : TagSearchIndex) (j : Nat)
    (hj : j < vs.length) (tag : String)
    (htag : tag ∈ (vs.getD j dummyVariant).canonical :: (vs.getD j dummyVariant).aliases)
    (htok : tok ∈ tokenizeText tag),
    (k + j) ∈ fuzzyGet (buildIndexAux k vs st).fuzzyIndex tok := by
  intro vs
  induction vs with
  | nil =>
    intro k st j hj
    simp at hj
  | cons v rest ih =>
    intro k st j hj tag htag htok
    cases j with
    | zero =>
      simp only [List.getD_cons_zero] at htag
      show (k + 0) ∈ fuzzyGet (buildIndexAux (k + 1) rest (indexVariant st k v)).fuzzyIndex tok
      exact buildIndexAux_fuzzy_mono (k + 0) tok rest (k + 1) _
        (by
          have := indexVariant_fuzzy_self st k v tag htag tok htok
          simpa using this)
    | succ j' =>
      simp only [List.getD_cons_succ] at htag
      have := ih (k + 1) (indexVariant st k v) j' (by simpa using hj) tag htag htok
      show (k + (j' + 1)) ∈ fuzzyGet (buildIndexAux (k + 1) rest (indexVariant st k v)).fuzzyIndex tok
      have harith : k + 1 + j' = k + (j' + 1) := by omega
      exact harith ▸ this

lemma buildIndex_fuzzy_mem (vs : List TagVariant) (j : Nat) (hj : j < vs.length)
    (tag : String)
    (htag : tag ∈ (vs.getD j dummyVariant).canonical :: (vs.getD j dummyVariant).aliases)
    (tok : String) (htok : tok ∈ tokenizeText tag) :
    j ∈ fuzzyGet (buildIndex vs).fuzzyIndex tok := by
  have := buildIndexAux_fuzzy_self tok vs 0 ⟨[], [], []⟩ j hj tag htag htok
  simpa using this

lemma setAddNat_mem_self (l : List Nat) (x : Nat) : x ∈ setAddNat l x := by
  unfold setAddNat
  by_cases h : x ∈ l
  · rw [if_pos h]
    exact h
  · rw [if_neg h]
    simp

lemma setAddNat_mem_mono (l : List Nat) (x y : Nat) (h : y ∈ l) : y ∈ setAddNat l x := by
  unfold setAddNat
  by_cases hx : x ∈ l
  · rw [if_pos hx]
    exact h
  · rw [if_neg hx]
    exact List.mem_append_left _ h

lemma foldl_setAddNat_mono (y : Nat) :
    ∀ (is : List Nat) (r : List Nat), y ∈ r → y ∈ is.foldl setAddNat r := by
  intro is
  induction is with
  | nil => intro r h; exact h
  | cons i rest ih =>
    intro r h
    rw [List.foldl_cons]
    exact ih _ (setAddNat_mem_mono r i y h)

lemma foldl_setAddNat_mem (y : Nat) :
    ∀ (is : List Nat) (r : List Nat), y ∈ is → y ∈ is.foldl setAddNat r := by
  intro is
  induction is with
  | nil => intro r h; simp at h
  | cons i rest ih =>
    intro r h
    rw [List.foldl_cons]
    rcases List.mem_cons.mp h with h | h
    · subst h
      exact foldl_setAddNat_mono y rest _ (setAddNat_mem_self r y)
    · exact ih _ h

lemma fuzzyScanFold_mono (token : String) (y : Nat) (idx : TagSearchIndex) :
    ∀ (r : List Nat), y ∈ r → y ∈ fuzzyScanFold idx token r := by
  unfold fuzzyScanFold
  generalize idx.fuzzyIndex = entries
  induction entries with
  | nil => intro r h; exact h
  | cons entry rest ih =>
    intro r h
    rw [List.foldl_cons]
    by_cases hc : FUZZY_minSimilarity ≤ calculateSimilarity token entry.1
    · rw [if_pos hc]
      exact ih _ (foldl_setAddNat_mono y entry.2 r h)
    · rw [if_neg hc]
      exact ih _ h

lemma searchTokenStep_mono (idx : TagSearchIndex) (r : List Nat) (token : String)
    (y : Nat) (h : y ∈ r) : y ∈ searchTokenStep idx r token := by
  unfold searchTokenStep
  cases hl : lookupFuzzy idx.fuzzyIndex token with
  | none => exact fuzzyScanFold_mono token y idx r h
  | some is => exact fuzzyScanFold_mono token y idx _ (foldl_setAddNat_mono y is r h)

lemma searchTokenStep_adds (idx : TagSearchIndex) (r : List Nat) (token : String)
    (i : Nat) (h : i ∈ fuzzyGet idx.fuzzyIndex token) : i ∈ searchTokenStep idx r token := by
  unfold searchTokenStep
  unfold fuzzyGet at h
  cases hl : lookupFuzzy idx.fuzzyIndex token with
  | none =>
    rw [hl] at h
    simp at h
  | some is =>
    rw [hl] at h
    simp only [Option.getD_some] at h
    exact fuzzyScanFold_mono token i idx _ (foldl_setAddNat_mem i is r h)

lemma foldl_searchTokenStep_mem (idx : TagSearchIndex) (i : Nat) (tok : String) :
    ∀ (toks : List String) (r : List Nat),
    (i ∈ r ∨ (tok ∈ toks ∧ i ∈ fuzzyGet idx.fuzzyIndex tok)) →
    i ∈ toks.foldl (searchTokenStep idx) r := by
  intro toks
  induction toks with
  | nil =>
    intro r h
    rcases h with h | ⟨h, _⟩
    · exact h
    · simp at h
  | cons t rest ih =>
    intro r h
    rw [List.foldl_cons]
    rcases h with h | ⟨ht, hf⟩
    · exact ih _ (Or.inl (searchTokenStep_mono idx r t i h))
    · rcases List.mem_cons.mp ht with ht | ht
      · subst ht
        exact ih _ (Or.inl (searchTokenStep_adds idx r tok i hf))
      · exact ih _ (Or.inr ⟨ht, hf⟩)

lemma searchIds_mem_of_fuzzy (idx : TagSearchIndex) (nq : String) (i : Nat)
    (tok : String) (htok : tok ∈ tokenizeText nq)
    (hf : i ∈ fuzzyGet idx.fuzzyIndex tok) : i ∈ searchIds idx nq := by
  unfold searchIds
  exact foldl_searchTokenStep_mem idx i tok (tokenizeText nq) _ (Or.inr ⟨htok, hf⟩)

lemma orderedInsert_cons_neg {α : Type} (r : α → α → Prop) [DecidableRel r]
    (x b : α) (l : List α) (h : ¬ r x b) :
    List.orderedInsert r x (b :: l) = b :: List.orderedInsert r x l := by
  simp [List.orderedInsert, if_neg h]

lemma orderedInsert_twoBlock {α : Type} (r : α → α → Prop) [DecidableRel r]
    (P : α → Prop) (hPR : ∀ a b, P a → ¬ P b → r a b ∧ ¬ r b a) (x : α) :
    ∀ (l1 l2 : List α), (∀ y ∈ l1, P y) → (∀ y ∈ l2, ¬ P y) →
    ∃ m1 m2, List.orderedInsert r x (l1 ++ l2) = m1 ++ m2 ∧
      (∀ y ∈ m1, P y) ∧ (∀ y ∈ m2, ¬ P y) := by
  intro l1
  by_cases hx : P x
  · induction l1 with
    | nil =>
      intro l2 h1 h2
      cases l2 with
      | nil => exact ⟨[x], [], by simp, by simp [hx], by simp⟩
      | cons b bs =>
        have hr : r x b := (hPR x b hx (h2 b (List.mem_cons_self _ _))).1
        refine ⟨[x], b :: bs, ?_, by simp [hx], h2⟩
        show List.orderedInsert r x (b :: bs) = [x] ++ b :: bs
        rw [List.orderedInsert_of_le r bs hr]
        rfl
    | cons a as ih =>
      intro l2 h1 h2
      by_cases hra : r x a
      · refine ⟨x :: a :: as, l2, ?_, ?_, h2⟩
        · show List.orderedInsert r x (a :: (as ++ l2)) = (x :: a :: as) ++ l2
          rw [List.orderedInsert_of_le r _ hra]
          rfl
        · intro y hy
          rcases List.mem_cons.mp hy with hy | hy
          · exact hy ▸ hx
          · exact h1 y hy
      · obtain ⟨m1, m2, heq, hm1, hm2⟩ :=
          ih l2 (fun y hy => h1 y (List.mem_cons_of_mem _ hy)) h2
        refine ⟨a :: m1, m2, ?_, ?_, hm2⟩
        · show List.orderedInsert r x (a :: (as ++ l2)) = (a :: m1) ++ m2
          rw [orderedInsert_cons_neg r x a _ hra, heq]
          rfl
        · intro y hy
          rcases List.mem_cons.mp hy with hy | hy
          · exact hy ▸ h1 a (List.mem_cons_self _ _)
          · exact hm1 y hy
  · induction l1 with
    | nil =>
      intro l2 h1 h2
      refine ⟨[], List.orderedInsert r x l2, by simp, by simp, ?_⟩
      intro y hy
      rcases (List.mem_orderedInsert r).mp hy with hy | hy
      · exact hy ▸ hx
      · exact h2 y hy
    | cons a as ih =>
      intro l2 h1 h2
      have hra : ¬ r x a := (hPR a x (h1 a (List.mem_cons_self _ _)) hx).2
      obtain ⟨m1, m2, heq, hm1, hm2⟩ :=
        ih l2 (fun y hy => h1 y (List.mem_cons_of_mem _ hy)) h2
      refine ⟨a :: m1, m2, ?_, ?_, hm2⟩
      · show List.orderedInsert r x (a :: (as ++ l2)) = (a :: m1) ++ m2
        rw [orderedInsert_cons_neg r x a _ hra, heq]
        rfl
      · intro y hy
        rcases List.mem_cons.mp hy with hy | hy
        · exact hy ▸ h1 a (List.mem_cons_self _ _)
        · exact hm1 y hy

lemma insertionSort_twoBlock {α : Type} (r : α → α → Prop) [DecidableRel r]
    (P : α → Prop) (hPR : ∀ a b, P a → ¬ P b → r a b ∧ ¬ r b a) :
    ∀ l : List α, ∃ l1 l2, List.insertionSort r l = l1 ++ l2 ∧
      (∀ y ∈ l1, P y) ∧ (∀ y ∈ l2, ¬ P y) := by
  intro l
  induction l with
  | nil => exact ⟨[], [], rfl, by simp, by simp⟩
  | cons a l ih =>
    obtain ⟨l1, l2, heq, h1, h2⟩ := ih
    have : List.insertionSort r (a :: l) = List.orderedInsert r a (l1 ++ l2) := by
      rw [List.insertionSort, heq]
    rw [this]
    exact orderedInsert_twoBlock r P hPR a l1 l2 h1 h2

lemma twoBlock_positions {α : Type} (d : α) (P : α → Prop) (l1 l2 : List α)
    (h1 : ∀ y ∈ l1, P y) (h2 : ∀ y ∈ l2, ¬ P y) (p q : Nat)
    (hp : p < (l1 ++ l2).length) (hq : q < (l1 ++ l2).length)
    (hPp : P ((l1 ++ l2).getD p d)) (hPq : ¬ P ((l1 ++ l2).getD q d)) : p < q := by
  have hplt : p < l1.length := by
    by_contra hge
    push_neg at hge
    rw [List.getD_eq_getElem _ _ hp] at hPp
    rw [List.getElem_append_right hge] at hPp
    exact h2 _ (List.getElem_mem _) hPp
  have hqge : l1.length ≤ q := by
    by_contra hlt
    push_neg at hlt
    rw [List.getD_eq_getElem _ _ hq] at hPq
    rw [List.getElem_append_left hlt] at hPq
    exact hPq (h1 _ (List.getElem_mem _))
  omega

lemma search_eq_sort (vocab : List TagVariant) (query nq : String)
    (hnq : strTrim (strToLower query) = nq) :
    search vocab query =
      List.insertionSort (fun a b => searchLe nq a b = true)
        ((searchIds (buildIndex vocab) nq).map (fun i => vocab.getD i dummyVariant)) := by
  simp only [search]
  rw [hnq]

lemma search_mem_of_searchIds (vocab : List TagVariant) (query nq : String)
    (hnq : strTrim (strToLower query) = nq) (i : Nat)
    (h : i ∈ searchIds (buildIndex vocab) nq) :
    vocab.getD i dummyVariant ∈ search vocab query := by
  rw [search_eq_sort vocab query nq hnq]
  refine (List.perm_insertionSort _ _).mem_iff.mpr ?_
  exact List.mem_map_of_mem _ h

/-- C10: for any vocabulary containing a variant with canonical `"latex"` and
alias `"latx"`, both `search("latx")` and `search("latex")` return that
variant, and in the `search("latx")` result every exactly-matched variant
(canonical or alias equal to the query) is ranked strictly before every
variant found only by fuzzy matching. -/
theorem claim10_theorem (vocab : List TagVariant) (j : Nat) (hj : j < vocab.length)
    (hcan : (vocab.getD j dummyVariant).canonical = "latex")
    (hal : "latx" ∈ (vocab.getD j dummyVariant).aliases) :
    (∃ v ∈ search vocab "latx", v.canonical = "latex" ∧ "latx" ∈ v.aliases) ∧
    (∃ v ∈ search vocab "latex", v.canonical = "latex" ∧ "latx" ∈ v.aliases) ∧
    (∀ p q, p < (search vocab "latx").length → q < (search vocab "latx").length →
      isExactMatch "latx" ((search vocab "latx").getD p dummyVariant) = true →
      isExactMatch "latx" ((search vocab "latx").getD q dummyVariant) = false →
      p < q) := by
  have hfz1 : j ∈ fuzzyGet (buildIndex vocab).fuzzyIndex "latx" :=
    buildIndex_fuzzy_mem vocab j hj "latx" (List.mem_cons_of_mem _ hal) "latx" (by decide)
  have hids1 : j ∈ searchIds (buildIndex vocab) "latx" :=
    searchIds_mem_of_fuzzy _ "latx" j "latx" (by decide) hfz1
  have hmem1 : vocab.getD j dummyVariant ∈ search vocab "latx" :=
    search_mem_of_searchIds vocab "latx" "latx" (by decide) j hids1
  have htok2 : "latex" ∈ tokenizeText (vocab.getD j dummyVariant).canonical := by
    rw [hcan]
    decide
  have hfz2 : j ∈ fuzzyGet (buildIndex vocab).fuzzyIndex "latex" :=
    buildIndex_fuzzy_mem vocab j hj (vocab.getD j dummyVariant).canonical
      (List.mem_cons_self _ _) "latex" htok2
  have hids2 : j ∈ searchIds (buildIndex vocab) "latex" :=
    searchIds_mem_of_fuzzy _ "latex" j "latex" (by decide) hfz2
  have hmem2 : vocab.getD j dummyVariant ∈ search vocab "latex" :=
    search_mem_of_searchIds vocab "latex" "latex" (by decide) j hids2
  refine ⟨⟨_, hmem1, hcan, hal⟩, ⟨_, hmem2, hcan, hal⟩, ?_⟩
  have hPR : ∀ a b : TagVariant, isExactMatch "latx" a = true →
      ¬ isExactMatch "latx" b = true →
      (searchLe "latx" a b = true) ∧ ¬ (searchLe "latx" b a = true) := by
    intro a b ha hb
    have hbf : isExactMatch "latx" b = false := by
      cases h : isExactMatch "latx" b
      · rfl
      · exact absurd h hb
    constructor
    · unfold searchLe
      rw [ha, hbf]
      simp
    · unfold searchLe
      rw [ha, hbf]
      simp
  obtain ⟨l1, l2, hsplit, h1, h2⟩ :=
    insertionSort_twoBlock (fun a b => searchLe "latx" a b = true)
      (fun v => isExactMatch "latx" v = true) hPR
      ((searchIds (buildIndex vocab) "latx").map (fun i => vocab.getD i dummyVariant))
  have hsearch := search_eq_sort vocab "latx" "latx" (by decide)
  intro p q hp hq hPp hPq
  rw [hsearch, hsplit] at hp hq hPp hPq
  refine twoBlock_positions dummyVariant (fun v => isExactMatch "latx" v = true)
    l1 l2 h1 h2 p q hp hq hPp ?_
  show ¬ isExactMatch "latx" ((l1 ++ l2).getD q dummyVariant) = true
  rw [hPq]
  simp

/-- Witness for C10 at the concrete two-variant vocabulary `witnessVocab`
(position 1 holds the variant with canonical `"latex"` and alias `"latx"`;
position 0 holds `"lates"`, found only through the fuzzy token scan). -/
theorem claim10_witness :
    (1 < witnessVocab.length ∧
     (witnessVocab.getD 1 dummyVariant).canonical = "latex" ∧
     "latx" ∈ (witnessVocab.getD 1 dummyVariant).aliases) ∧
    ((∃ v ∈ search witnessVocab "latx", v.canonical = "latex" ∧ "latx" ∈ v.aliases) ∧
     (∃ v ∈ search witnessVocab "latex", v.canonical = "latex" ∧ "latx" ∈ v.aliases) ∧
     (∀ p q, p < (search witnessVocab "latx").length →
       q < (search witnessVocab "latx").length →
       isExactMatch "latx" ((search witnessVocab "latx").getD p dummyVariant) = true →
       isExactMatch "latx" ((search witnessVocab "latx").getD q dummyVariant) = false →
       p < q)) :=
  ⟨⟨by decide, by decide, by decide⟩,
   claim10_theorem witnessVocab 1 (by decide) (by decide) (by decide)⟩
